import Mathlib

/-!
Shallow embedding of the Soroban lending-pool contract
(`src/contracts/lending/src/contract.rs`) and verification of its
specification.

Modelling conventions:
* `Address` is modelled as `Nat` (`Addr`).
* Soroban `Map<Address, i128>` is modelled as an association list with
  first-occurrence lookup (`aGet`) and first-occurrence replacement /
  append-on-missing update (`aSet`); starting from the empty map these
  operations keep keys unique, matching the unique-key Soroban `Map`.
* Rust `i128` is modelled as `Int` together with explicit range checks
  `[-2^127, 2^127 - 1]`.  `checked_mul` / `checked_div` from the source map
  to `cMul` / `cDiv` returning `Option Int`.  Plain `+` / `-` / `+=` / `-=`
  on `i128` in the source also trap on overflow (the contract crate is
  compiled with `overflow-checks = true`, the standard Soroban profile, a
  panic aborting the whole invocation), so they map to `cAdd` / `cSub`.
* Each contract entry point becomes a function `State → … → Except …`.
  A Rust `panic!` aborts the Soroban invocation and reverts every storage
  write; in the translation every failure returns `.error (err, st, evs)`
  where `st` is the storage contents at the abort point (writes are threaded
  explicitly, so the theorem that `st` equals the input state is a real
  statement about the code's ordering of checks and writes) and `evs` is the
  list of token-transfer calls issued before the abort.
* `require_auth` and the token client are external collaborators: auth is
  assumed to succeed (it has no effect on the contract's own state) and a
  `transfer` call is recorded as a `TransferEv` event.
-/

abbrev Addr := Nat

/-- One direction of a token transfer: into the contract's custody or out
to the user. -/
inductive Dir where
  | toContract
  | toUser
deriving DecidableEq, Repr

/-- A call to `token_client.transfer` as issued by the contract. -/
structure TransferEv where
  dir : Dir
  user : Addr
  token : Addr
  amount : Int
deriving DecidableEq, Repr

/-- The panics of the contract, named as in the specification's error
table. -/
inductive Err where
  | NotInitialized
  | AlreadyInitialized
  | InvalidAmount
  | InvalidParameter
  | NothingToWithdraw
  | NoDebt
  | InsufficientCollateral
  | InsufficientLiquidity
  | PriceNotSet
  | ArithmeticOverflow
deriving DecidableEq, Repr

/-! ## Checked 128-bit arithmetic -/

def I128_MIN : Int := -(2 ^ 127)
def I128_MAX : Int := 2 ^ 127 - 1

def inI128 (x : Int) : Prop := I128_MIN ≤ x ∧ x ≤ I128_MAX

instance (x : Int) : Decidable (inI128 x) := by unfold inI128; infer_instance

/-- `i128::checked_add`: `some` iff the exact sum fits in `i128`. -/
def cAdd (a b : Int) : Option Int :=
  if inI128 (a + b) then some (a + b) else none

/-- `i128::checked_sub` (also models plain `-` under `overflow-checks`). -/
def cSub (a b : Int) : Option Int :=
  if inI128 (a - b) then some (a - b) else none

/-- `i128::checked_mul`: `some` iff the exact product fits in `i128`. -/
def cMul (a b : Int) : Option Int :=
  if inI128 (a * b) then some (a * b) else none

/-- `i128::checked_div`: `none` on division by zero or `MIN / -1`;
Rust's `/` truncates toward zero, i.e. `Int.tdiv`. -/
def cDiv (a b : Int) : Option Int :=
  if b = 0 ∨ (a = I128_MIN ∧ b = -1) then none else some (Int.tdiv a b)

/-! ## Association-list maps -/

/-- Lookup of the first entry with the given key. -/
def aGet {α : Type} : List (Addr × α) → Addr → Option α
  | [], _ => none
  | (k, v) :: rest, k' => if k = k' then some v else aGet rest k'

/-- Replace the first entry with the given key, or append a new entry. -/
def aSet {α : Type} : List (Addr × α) → Addr → α → List (Addr × α)
  | [], k, v => [(k, v)]
  | (k0, v0) :: rest, k, v =>
      if k0 = k then (k, v) :: rest else (k0, v0) :: aSet rest k v

/-- `map.get(k).unwrap_or(0)` on a `Map<Address, i128>`. -/
def mGetD (m : List (Addr × Int)) (k : Addr) : Int :=
  match aGet m k with
  | some v => v
  | none => 0

/-! ## Data model -/

/-- `struct Pool` from the source. -/
structure Pool where
  token : Addr
  total_supply_shares : Int
  total_debt_shares : Int
  total_reserves : Int
deriving DecidableEq, Repr

/-- `struct UserPosition` from the source. -/
structure UserPosition where
  deposit_shares : List (Addr × Int)
  debt_shares : List (Addr × Int)
deriving DecidableEq, Repr

/-- The persistent storage of the contract: the `DataKey`-indexed store,
split by key constructor (`Pool`, `UserPos`, `Ltv`, `Price`).  The `Owner`
entry only feeds `require_auth` and is not modelled. -/
structure State where
  pools : List (Addr × Pool)
  positions : List (Addr × UserPosition)
  ltvs : List (Addr × Nat)
  prices : List (Addr × Int)
deriving DecidableEq, Repr

/-! ## Storage accessors (helper functions of the source) -/

/-- `get_pool`: `expect("pool not initialized")`. -/
def get_pool (s : State) (token : Addr) : Except Err Pool :=
  match aGet s.pools token with
  | some p => .ok p
  | none => .error .NotInitialized

def save_pool (s : State) (token : Addr) (pool : Pool) : State :=
  { s with pools := aSet s.pools token pool }

/-- `get_user_pos`: a fresh empty position for a never-seen user. -/
def get_user_pos (s : State) (user : Addr) : UserPosition :=
  match aGet s.positions user with
  | some p => p
  | none => { deposit_shares := [], debt_shares := [] }

def save_user_pos (s : State) (user : Addr) (pos : UserPosition) : State :=
  { s with positions := aSet s.positions user pos }

/-- `get_ltv`: `unwrap_or(0)`. -/
def get_ltv (s : State) (token : Addr) : Nat :=
  match aGet s.ltvs token with
  | some v => v
  | none => 0

/-- `get_price`: `unwrap_or(0)`. -/
def get_price (s : State) (token : Addr) : Int :=
  match aGet s.prices token with
  | some v => v
  | none => 0

/-! ## Health Evaluator (`get_user_health`) -/

/-- The collateral loop of `get_user_health`: left fold over the
`deposit_shares` entries accumulating
`amount.checked_mul(price).checked_mul(ltv).checked_div(10000)`. -/
def userHealthCollat (s : State) : Int → List (Addr × Int) → Except Err Int
  | acc, [] => .ok acc
  | acc, (token, amount) :: rest =>
    match cMul amount (get_price s token) with
    | none => .error .ArithmeticOverflow
    | some value =>
      match cMul value (Int.ofNat (get_ltv s token)) with
      | none => .error .ArithmeticOverflow
      | some v2 =>
        match cDiv v2 10000 with
        | none => .error .ArithmeticOverflow
        | some cv =>
          match cAdd acc cv with
          | none => .error .ArithmeticOverflow
          | some acc' => userHealthCollat s acc' rest

/-- The debt loop of `get_user_health`: left fold over the `debt_shares`
entries accumulating `amount.checked_mul(price)`. -/
def userHealthDebt (s : State) : Int → List (Addr × Int) → Except Err Int
  | acc, [] => .ok acc
  | acc, (token, amount) :: rest =>
    match cMul amount (get_price s token) with
    | none => .error .ArithmeticOverflow
    | some dv =>
      match cAdd acc dv with
      | none => .error .ArithmeticOverflow
      | some acc' => userHealthDebt s acc' rest

/-- `get_user_health`: `(total_collateral_value, total_debt_value)`. -/
def get_user_health (s : State) (pos : UserPosition) : Except Err (Int × Int) :=
  match userHealthCollat s 0 pos.deposit_shares with
  | .error e => .error e
  | .ok c =>
    match userHealthDebt s 0 pos.debt_shares with
    | .error e => .error e
    | .ok d => .ok (c, d)

/-! ## Administrative entry points -/

/-- `init_pool`: creates an all-zero pool and zero-initializes the asset's
LTV and price; fails if the pool already exists. -/
def init_pool (s : State) (token : Addr) : Except Err State :=
  match aGet s.pools token with
  | some _ => .error .AlreadyInitialized
  | none =>
    .ok { s with
          pools := aSet s.pools token
            { token := token
              total_supply_shares := 0
              total_debt_shares := 0
              total_reserves := 0 }
          ltvs := aSet s.ltvs token 0
          prices := aSet s.prices token 0 }

/-- `set_ltv`: rejects ratios above 10000 basis points. -/
def set_ltv (s : State) (token : Addr) (ltv : Nat) : Except Err State :=
  if ltv > 10000 then .error .InvalidParameter
  else .ok { s with ltvs := aSet s.ltvs token ltv }

/-- `set_price`: rejects negative prices. -/
def set_price (s : State) (token : Addr) (price : Int) : Except Err State :=
  if price < 0 then .error .InvalidParameter
  else .ok { s with prices := aSet s.prices token price }

/-! ## Core entry points -/

/-- Result of a state-changing entry point: on success, the new storage
and the transfers performed; on failure, the error, the storage at the
abort point, and the transfers performed before the abort. -/
abbrev OpResult := Except (Err × State × List TransferEv) (State × List TransferEv)

/-- `supply(user, token, amount)`. -/
def supply (s : State) (user token : Addr) (amount : Int) : OpResult :=
  if amount ≤ 0 then .error (.InvalidAmount, s, []) else
  match get_pool s token with
  | .error e => .error (e, s, [])
  | .ok pool =>
    let user_pos := get_user_pos s user
    let evs := [⟨Dir.toContract, user, token, amount⟩]
    match cAdd (mGetD user_pos.deposit_shares token) amount with
    | none => .error (.ArithmeticOverflow, s, evs)
    | some new_deposits =>
      let user_pos' := { user_pos with
        deposit_shares := aSet user_pos.deposit_shares token new_deposits }
      match cAdd pool.total_supply_shares amount with
      | none => .error (.ArithmeticOverflow, s, evs)
      | some ts =>
        let pool' := { pool with total_supply_shares := ts }
        .ok (save_user_pos (save_pool s token pool') user user_pos', evs)

/-- `withdraw(user, token, amount)`. -/
def withdraw (s : State) (user token : Addr) (amount : Int) : OpResult :=
  if amount ≤ 0 then .error (.InvalidAmount, s, []) else
  match get_pool s token with
  | .error e => .error (e, s, [])
  | .ok pool =>
    let user_pos := get_user_pos s user
    let current_deposit := mGetD user_pos.deposit_shares token
    if current_deposit = 0 then .error (.NothingToWithdraw, s, []) else
    let amount_to_withdraw := min amount current_deposit
    match cSub current_deposit amount_to_withdraw with
    | none => .error (.ArithmeticOverflow, s, [])
    | some reduced =>
      let pos1 := { user_pos with
        deposit_shares := aSet user_pos.deposit_shares token reduced }
      match get_user_health s pos1 with
      | .error e => .error (e, s, [])
      | .ok (collateral_value, debt_value) =>
        if collateral_value < debt_value then
          -- source line 154: revert the speculative deduction, then panic
          let _rolled := { pos1 with
            deposit_shares := aSet pos1.deposit_shares token current_deposit }
          .error (.InsufficientCollateral, s, [])
        else
          match cSub pool.total_supply_shares pool.total_debt_shares with
          | none => .error (.ArithmeticOverflow, s, [])
          | some available_liquidity =>
            if amount_to_withdraw > available_liquidity then
              .error (.InsufficientLiquidity, s, [])
            else
              match cSub pool.total_supply_shares amount_to_withdraw with
              | none => .error (.ArithmeticOverflow, s, [])
              | some ts =>
                let pool' := { pool with total_supply_shares := ts }
                let evs := [⟨Dir.toUser, user, token, amount_to_withdraw⟩]
                .ok (save_user_pos (save_pool s token pool') user pos1, evs)

/-- `repay(user, token, amount)`. -/
def repay (s : State) (user token : Addr) (amount : Int) : OpResult :=
  if amount ≤ 0 then .error (.InvalidAmount, s, []) else
  match get_pool s token with
  | .error e => .error (e, s, [])
  | .ok pool =>
    let user_pos := get_user_pos s user
    let current_debt := mGetD user_pos.debt_shares token
    if current_debt = 0 then .error (.NoDebt, s, []) else
    let amount_to_repay := min amount current_debt
    let evs := [⟨Dir.toContract, user, token, amount_to_repay⟩]
    match cSub current_debt amount_to_repay with
    | none => .error (.ArithmeticOverflow, s, evs)
    | some reduced =>
      let user_pos' := { user_pos with
        debt_shares := aSet user_pos.debt_shares token reduced }
      match cSub pool.total_debt_shares amount_to_repay with
      | none => .error (.ArithmeticOverflow, s, evs)
      | some tb =>
        let pool' := { pool with total_debt_shares := tb }
        .ok (save_user_pos (save_pool s token pool') user user_pos', evs)

/-- `borrow(user, token, amount)`. -/
def borrow (s : State) (user token : Addr) (amount : Int) : OpResult :=
  if amount ≤ 0 then .error (.InvalidAmount, s, []) else
  let user_pos := get_user_pos s user
  match get_user_health s user_pos with
  | .error e => .error (e, s, [])
  | .ok (collateral_value, debt_value) =>
    let price := get_price s token
    if price ≤ 0 then .error (.PriceNotSet, s, []) else
    match cMul amount price with
    | none => .error (.ArithmeticOverflow, s, [])
    | some new_debt_value =>
      match cAdd debt_value new_debt_value with
      | none => .error (.ArithmeticOverflow, s, [])
      | some debt_value' =>
        if collateral_value < debt_value' then
          .error (.InsufficientCollateral, s, [])
        else
          match get_pool s token with
          | .error e => .error (e, s, [])
          | .ok pool =>
            match cSub pool.total_supply_shares pool.total_debt_shares with
            | none => .error (.ArithmeticOverflow, s, [])
            | some available_liquidity =>
              if amount > available_liquidity then
                .error (.InsufficientLiquidity, s, [])
              else
                match cAdd (mGetD user_pos.debt_shares token) amount with
                | none => .error (.ArithmeticOverflow, s, [])
                | some new_debt =>
                  let user_pos' := { user_pos with
                    debt_shares := aSet user_pos.debt_shares token new_debt }
                  match cAdd pool.total_debt_shares amount with
                  | none => .error (.ArithmeticOverflow, s, [])
                  | some tb =>
                    let pool' := { pool with total_debt_shares := tb }
                    let evs := [⟨Dir.toUser, user, token, amount⟩]
                    .ok (save_user_pos (save_pool s token pool') user user_pos', evs)

/-! ## Lemmas on checked arithmetic -/

theorem cAdd_some {a b v : Int} (h : cAdd a b = some v) : v = a + b := by
  unfold cAdd at h
  split at h
  · exact (Option.some.inj h).symm
  · exact absurd h (by simp)

theorem cSub_some {a b v : Int} (h : cSub a b = some v) : v = a - b := by
  unfold cSub at h
  split at h
  · exact (Option.some.inj h).symm
  · exact absurd h (by simp)

theorem cMul_some {a b v : Int} (h : cMul a b = some v) : v = a * b := by
  unfold cMul at h
  split at h
  · exact (Option.some.inj h).symm
  · exact absurd h (by simp)

theorem cDiv_ten_thousand (a : Int) : cDiv a 10000 = some (Int.tdiv a 10000) := by
  unfold cDiv
  norm_num

theorem cMul_zero_left (b : Int) : cMul 0 b = some 0 := by
  unfold cMul inI128 I128_MIN I128_MAX
  norm_num

theorem cAdd_self_right (a : Int) (h : inI128 a) : cAdd a 0 = some a := by
  unfold cAdd
  simp [h]

/-! ## Lemmas on association lists -/

theorem aGet_aSet_self {α : Type} (m : List (Addr × α)) (k : Addr) (v : α) :
    aGet (aSet m k v) k = some v := by
  induction m with
  | nil => simp [aSet, aGet]
  | cons p rest ih =>
    obtain ⟨k0, v0⟩ := p
    by_cases h : k0 = k
    · simp [aSet, h, aGet]
    · simp [aSet, h, aGet, ih]

theorem aGet_aSet_ne {α : Type} (m : List (Addr × α)) (k k' : Addr) (v : α)
    (h : k ≠ k') : aGet (aSet m k v) k' = aGet m k' := by
  induction m with
  | nil => simp [aSet, aGet, h]
  | cons p rest ih =>
    obtain ⟨k0, v0⟩ := p
    by_cases hk : k0 = k
    · subst hk
      simp [aSet, aGet, h]
    · simp [aSet, hk, aGet, ih]

/-- Setting a key back to the value it holds restores the map exactly. -/
theorem aSet_aSet_restore {α : Type} (m : List (Addr × α)) (k : Addr)
    (v cur : α) (h : aGet m k = some cur) : aSet (aSet m k v) k cur = m := by
  induction m with
  | nil => simp [aGet] at h
  | cons p rest ih =>
    obtain ⟨k0, v0⟩ := p
    by_cases hk : k0 = k
    · subst hk
      simp [aGet] at h
      simp [aSet, h]
    · simp [aGet, hk] at h
      simp [aSet, hk, ih h]

theorem mem_aSet {α : Type} (m : List (Addr × α)) (k : Addr) (v : α)
    (p : Addr × α) (hp : p ∈ aSet m k v) : p = (k, v) ∨ p ∈ m := by
  induction m with
  | nil =>
    simp [aSet] at hp
    exact Or.inl hp
  | cons q rest ih =>
    obtain ⟨k0, v0⟩ := q
    by_cases hk : k0 = k
    · simp [aSet, hk] at hp
      rcases hp with h | h
      · exact Or.inl h
      · exact Or.inr (List.mem_cons_of_mem _ h)
    · simp [aSet, hk] at hp
      rcases hp with h | h
      · exact Or.inr (by simp [h])
      · rcases ih h with h' | h'
        · exact Or.inl h'
        · exact Or.inr (List.mem_cons_of_mem _ h')

theorem fst_mem_aSet {α : Type} (m : List (Addr × α)) (k a : Addr) (v : α)
    (h : a ∈ (aSet m k v).map Prod.fst) : a ∈ m.map Prod.fst ∨ a = k := by
  simp only [List.mem_map] at h
  obtain ⟨p, hp, hfst⟩ := h
  rcases mem_aSet m k v p hp with h' | h'
  · subst h'
    exact Or.inr hfst.symm
  · exact Or.inl (by exact List.mem_map.2 ⟨p, h', hfst⟩)

theorem aSet_cons_ne {α : Type} (k0 k : Addr) (v0 v : α)
    (rest : List (Addr × α)) (hk : k0 ≠ k) :
    aSet ((k0, v0) :: rest) k v = (k0, v0) :: aSet rest k v := by
  simp [aSet, hk]

theorem aSet_cons_self {α : Type} (k : Addr) (v0 v : α)
    (rest : List (Addr × α)) :
    aSet ((k, v0) :: rest) k v = (k, v) :: rest := by
  simp [aSet]

theorem nodup_keys_aSet {α : Type} (m : List (Addr × α)) (k : Addr) (v : α)
    (h : (m.map Prod.fst).Nodup) : ((aSet m k v).map Prod.fst).Nodup := by
  induction m with
  | nil => simp [aSet]
  | cons p rest ih =>
    obtain ⟨k0, v0⟩ := p
    rw [List.map_cons, List.nodup_cons] at h
    by_cases hk : k0 = k
    · subst hk
      rw [aSet_cons_self, List.map_cons, List.nodup_cons]
      exact ⟨h.1, h.2⟩
    · rw [aSet_cons_ne k0 k v0 v rest hk, List.map_cons, List.nodup_cons]
      refine ⟨?_, ih h.2⟩
      intro hmem
      rcases fst_mem_aSet rest k k0 v hmem with h' | h'
      · exact h.1 h'
      · exact hk h'

theorem mGetD_aSet_self (m : List (Addr × Int)) (k : Addr) (v : Int) :
    mGetD (aSet m k v) k = v := by
  simp [mGetD, aGet_aSet_self]

theorem mGetD_aSet_ne (m : List (Addr × Int)) (k k' : Addr) (v : Int)
    (h : k ≠ k') : mGetD (aSet m k v) k' = mGetD m k' := by
  simp [mGetD, aGet_aSet_ne m k k' v h]

theorem aGet_of_mGetD_ne_zero (m : List (Addr × Int)) (k : Addr)
    (h : mGetD m k ≠ 0) : aGet m k = some (mGetD m k) := by
  unfold mGetD at h ⊢
  cases hg : aGet m k with
  | none => rw [hg] at h; exact absurd rfl h
  | some v => rfl

/-! ## Sums over association lists -/

/-- Sum of a per-entry value over all entries of an association list. -/
def termSum {α : Type} (g : Addr × α → Int) (l : List (Addr × α)) : Int :=
  (l.map g).sum

theorem termSum_nil {α : Type} (g : Addr × α → Int) : termSum g [] = 0 := rfl

theorem termSum_cons {α : Type} (g : Addr × α → Int) (p : Addr × α)
    (l : List (Addr × α)) : termSum g (p :: l) = g p + termSum g l := by
  simp [termSum]

/-- The contribution of an optional entry value to a `termSum`. -/
def optTerm {α : Type} (g : Addr × α → Int) (k : Addr) : Option α → Int
  | some w => g (k, w)
  | none => 0

theorem termSum_aSet {α : Type} (g : Addr × α → Int) (m : List (Addr × α))
    (k : Addr) (v : α) :
    termSum g (aSet m k v) =
      termSum g m - optTerm g k (aGet m k) + g (k, v) := by
  induction m with
  | nil => simp [aSet, aGet, termSum, optTerm]
  | cons p rest ih =>
    obtain ⟨k0, v0⟩ := p
    by_cases hk : k0 = k
    · subst hk
      have h2 : aGet ((k0, v0) :: rest) k0 = some v0 := by simp [aGet]
      rw [aSet_cons_self, h2, termSum_cons, termSum_cons]
      simp only [optTerm]
      ring
    · have h2 : aGet ((k0, v0) :: rest) k = aGet rest k := by simp [aGet, hk]
      rw [aSet_cons_ne k0 k v0 v rest hk, h2, termSum_cons, termSum_cons, ih]
      ring

/-! ## More arithmetic inversion helpers -/

theorem cAdd_inI128 {a b v : Int} (h : cAdd a b = some v) : inI128 (a + b) := by
  unfold cAdd at h
  split at h
  · assumption
  · exact absurd h (by simp)

theorem cSub_inI128 {a b v : Int} (h : cSub a b = some v) : inI128 (a - b) := by
  unfold cSub at h
  split at h
  · assumption
  · exact absurd h (by simp)

theorem cMul_inI128 {a b v : Int} (h : cMul a b = some v) : inI128 (a * b) := by
  unfold cMul at h
  split at h
  · assumption
  · exact absurd h (by simp)

theorem cDiv_some {a b v : Int} (h : cDiv a b = some v) : v = Int.tdiv a b := by
  unfold cDiv at h
  split at h
  · exact absurd h (by simp)
  · exact (Option.some.inj h).symm

theorem get_pool_ok {s : State} {t : Addr} {p : Pool}
    (h : get_pool s t = .ok p) : aGet s.pools t = some p := by
  unfold get_pool at h
  cases hg : aGet s.pools t with
  | none => rw [hg] at h; exact absurd h (by simp)
  | some q => rw [hg] at h; exact congrArg some (Except.ok.inj h)

theorem mem_of_aGet {α : Type} {m : List (Addr × α)} {k : Addr} {v : α}
    (h : aGet m k = some v) : (k, v) ∈ m := by
  induction m with
  | nil => simp [aGet] at h
  | cons p rest ih =>
    obtain ⟨k0, v0⟩ := p
    by_cases hk : k0 = k
    · subst hk
      simp [aGet] at h
      simp [h]
    · simp [aGet, hk] at h
      exact List.mem_cons_of_mem _ (ih h)

/-! ## Pure values of the Health Evaluator -/

/-- The collateral contribution of one deposit entry:
`trunc(amount * price * ltv / 10000)` (Rust division truncates toward
zero). -/
def collatTerm (s : State) (p : Addr × Int) : Int :=
  Int.tdiv (p.2 * get_price s p.1 * Int.ofNat (get_ltv s p.1)) 10000

/-- Total risk-adjusted collateral value of a deposit map. -/
def collatSum (s : State) (l : List (Addr × Int)) : Int :=
  termSum (collatTerm s) l

/-- The debt contribution of one debt entry: `amount * price`. -/
def debtTerm (s : State) (p : Addr × Int) : Int :=
  p.2 * get_price s p.1

/-- Total debt value of a debt map. -/
def debtSum (s : State) (l : List (Addr × Int)) : Int :=
  termSum (debtTerm s) l

theorem userHealthCollat_ok (s : State) (l : List (Addr × Int)) :
    ∀ acc C, userHealthCollat s acc l = .ok C → C = acc + collatSum s l := by
  induction l with
  | nil =>
    intro acc C h
    simp only [userHealthCollat] at h
    simp [collatSum, termSum, Except.ok.inj h]
  | cons p rest ih =>
    intro acc C h
    obtain ⟨token, amount⟩ := p
    simp only [userHealthCollat] at h
    split at h
    next => exact absurd h (by simp)
    next value hm1 =>
      split at h
      next => exact absurd h (by simp)
      next v2 hm2 =>
        split at h
        next => exact absurd h (by simp)
        next cv hm3 =>
          split at h
          next => exact absurd h (by simp)
          next acc' hm4 =>
            have hC := ih acc' C h
            have h1 := cMul_some hm1
            have h2 := cMul_some hm2
            have h3 := cDiv_some hm3
            have h4 := cAdd_some hm4
            subst h1 h2 h3 h4
            rw [collatSum, termSum_cons, hC]
            unfold collatSum collatTerm
            ring

theorem userHealthDebt_ok (s : State) (l : List (Addr × Int)) :
    ∀ acc D, userHealthDebt s acc l = .ok D → D = acc + debtSum s l := by
  induction l with
  | nil =>
    intro acc D h
    simp only [userHealthDebt] at h
    simp [debtSum, termSum, Except.ok.inj h]
  | cons p rest ih =>
    intro acc D h
    obtain ⟨token, amount⟩ := p
    simp only [userHealthDebt] at h
    split at h
    next => exact absurd h (by simp)
    next dv hm1 =>
      split at h
      next => exact absurd h (by simp)
      next acc' hm2 =>
        have hD := ih acc' D h
        have h1 := cMul_some hm1
        have h2 := cAdd_some hm2
        subst h1 h2
        rw [debtSum, termSum_cons, hD]
        unfold debtSum debtTerm
        ring

/-- Successful health evaluation returns exactly the truncating sums. -/
theorem get_user_health_ok {s : State} {pos : UserPosition} {c d : Int}
    (h : get_user_health s pos = .ok (c, d)) :
    c = collatSum s pos.deposit_shares ∧ d = debtSum s pos.debt_shares := by
  unfold get_user_health at h
  split at h
  next => exact absurd h (by simp)
  next c0 hc =>
    split at h
    next => exact absurd h (by simp)
    next d0 hd =>
      have hcd := Except.ok.inj h
      rw [Prod.mk.injEq] at hcd
      obtain ⟨hc1, hd1⟩ := hcd
      have h1 := userHealthCollat_ok s pos.deposit_shares 0 c0 hc
      have h2 := userHealthDebt_ok s pos.debt_shares 0 d0 hd
      subst hc1 hd1
      constructor
      · simpa using h1
      · simpa using h2

/-- The only error the Health Evaluator ever raises is
`ArithmeticOverflow`. -/
theorem get_user_health_err {s : State} {pos : UserPosition} {e : Err}
    (h : get_user_health s pos = .error e) : e = .ArithmeticOverflow := by
  have collatErr : ∀ (l : List (Addr × Int)) (acc : Int) (e' : Err),
      userHealthCollat s acc l = .error e' → e' = .ArithmeticOverflow := by
    intro l
    induction l with
    | nil => intro acc e' h'; simp [userHealthCollat] at h'
    | cons p rest ih =>
      intro acc e' h'
      obtain ⟨token, amount⟩ := p
      simp only [userHealthCollat] at h'
      split at h'
      next => exact (Except.error.inj h').symm
      next value hm1 =>
        split at h'
        next => exact (Except.error.inj h').symm
        next v2 hm2 =>
          split at h'
          next => exact (Except.error.inj h').symm
          next cv hm3 =>
            split at h'
            next => exact (Except.error.inj h').symm
            next acc' hm4 => exact ih acc' e' h'
  have debtErr : ∀ (l : List (Addr × Int)) (acc : Int) (e' : Err),
      userHealthDebt s acc l = .error e' → e' = .ArithmeticOverflow := by
    intro l
    induction l with
    | nil => intro acc e' h'; simp [userHealthDebt] at h'
    | cons p rest ih =>
      intro acc e' h'
      obtain ⟨token, amount⟩ := p
      simp only [userHealthDebt] at h'
      split at h'
      next => exact (Except.error.inj h').symm
      next dv hm1 =>
        split at h'
        next => exact (Except.error.inj h').symm
        next acc' hm2 => exact ih acc' e' h'
  unfold get_user_health at h
  split at h
  next e0 hc =>
    rw [← Except.error.inj h]
    exact collatErr _ _ _ hc
  next c0 hc =>
    split at h
    next e0 hd =>
      rw [← Except.error.inj h]
      exact debtErr _ _ _ hd
    next d0 hd => exact absurd h (by simp)

/-! ## The Health Evaluator depends only on prices and LTVs -/

theorem get_price_congr {s s' : State} (h : s'.prices = s.prices) (t : Addr) :
    get_price s' t = get_price s t := by
  unfold get_price
  rw [h]

theorem get_ltv_congr {s s' : State} (h : s'.ltvs = s.ltvs) (t : Addr) :
    get_ltv s' t = get_ltv s t := by
  unfold get_ltv
  rw [h]

theorem userHealthCollat_congr {s s' : State} (hp : s'.prices = s.prices)
    (hl : s'.ltvs = s.ltvs) (l : List (Addr × Int)) :
    ∀ acc, userHealthCollat s' acc l = userHealthCollat s acc l := by
  induction l with
  | nil => intro acc; rfl
  | cons p rest ih =>
    intro acc
    obtain ⟨token, amount⟩ := p
    simp only [userHealthCollat, get_price_congr hp, get_ltv_congr hl, ih]

theorem userHealthDebt_congr {s s' : State} (hp : s'.prices = s.prices)
    (l : List (Addr × Int)) :
    ∀ acc, userHealthDebt s' acc l = userHealthDebt s acc l := by
  induction l with
  | nil => intro acc; rfl
  | cons p rest ih =>
    intro acc
    obtain ⟨token, amount⟩ := p
    simp only [userHealthDebt, get_price_congr hp, ih]

theorem get_user_health_congr {s s' : State} (hp : s'.prices = s.prices)
    (hl : s'.ltvs = s.ltvs) (pos : UserPosition) :
    get_user_health s' pos = get_user_health s pos := by
  unfold get_user_health
  rw [userHealthCollat_congr hp hl, userHealthDebt_congr hp]

/-! ## Success and failure inversion for the entry points -/

theorem supply_ok {s : State} {user token : Addr} {amount : Int}
    {s' : State} {evs : List TransferEv}
    (h : supply s user token amount = .ok (s', evs)) :
    0 < amount ∧
    ∃ pool, aGet s.pools token = some pool ∧
      cAdd (mGetD (get_user_pos s user).deposit_shares token) amount
        = some (mGetD (get_user_pos s user).deposit_shares token + amount) ∧
      cAdd pool.total_supply_shares amount
        = some (pool.total_supply_shares + amount) ∧
      s' = save_user_pos
             (save_pool s token
               { pool with
                 total_supply_shares := pool.total_supply_shares + amount })
             user
             { get_user_pos s user with
               deposit_shares :=
                 aSet (get_user_pos s user).deposit_shares token
                   (mGetD (get_user_pos s user).deposit_shares token + amount) } ∧
      evs = [⟨Dir.toContract, user, token, amount⟩] := by
  simp only [supply] at h
  split at h
  next hle => exact absurd h (by simp)
  next hle =>
    split at h
    next e hpool => exact absurd h (by simp)
    next pool hpool =>
      split at h
      next => exact absurd h (by simp)
      next new_deposits hnd =>
        split at h
        next => exact absurd h (by simp)
        next ts hts =>
          have hinj := Except.ok.inj h
          rw [Prod.mk.injEq] at hinj
          obtain ⟨hs', hevs⟩ := hinj
          have hnd' := cAdd_some hnd
          have hts' := cAdd_some hts
          subst hnd' hts'
          exact ⟨by omega, pool, get_pool_ok hpool, hnd, hts, hs'.symm, hevs.symm⟩

theorem supply_err {s : State} {user token : Addr} {amount : Int}
    {e : Err} {s' : State} {evs : List TransferEv}
    (h : supply s user token amount = .error (e, s', evs)) : s' = s := by
  simp only [supply] at h
  repeat' split at h
  all_goals first
    | exact Except.noConfusion h
    | exact (congrArg (fun t => t.2.1) (Except.error.inj h)).symm

theorem withdraw_ok {s : State} {user token : Addr} {amount : Int}
    {s' : State} {evs : List TransferEv}
    (h : withdraw s user token amount = .ok (s', evs)) :
    0 < amount ∧
    ∃ pool, aGet s.pools token = some pool ∧
      mGetD (get_user_pos s user).deposit_shares token ≠ 0 ∧
      (let current := mGetD (get_user_pos s user).deposit_shares token
       let actual := min amount current
       let pos1 : UserPosition :=
         { get_user_pos s user with
           deposit_shares :=
             aSet (get_user_pos s user).deposit_shares token (current - actual) }
       cSub current actual = some (current - actual) ∧
       (∃ c d, get_user_health s pos1 = .ok (c, d) ∧ ¬ c < d) ∧
       cSub pool.total_supply_shares pool.total_debt_shares
         = some (pool.total_supply_shares - pool.total_debt_shares) ∧
       ¬ actual > pool.total_supply_shares - pool.total_debt_shares ∧
       cSub pool.total_supply_shares actual
         = some (pool.total_supply_shares - actual) ∧
       s' = save_user_pos
              (save_pool s token
                { pool with
                  total_supply_shares := pool.total_supply_shares - actual })
              user pos1 ∧
       evs = [⟨Dir.toUser, user, token, actual⟩]) := by
  simp only [withdraw] at h
  split at h
  next => exact Except.noConfusion h
  next hle =>
    split at h
    next => exact Except.noConfusion h
    next pool hpool =>
      split at h
      next => exact Except.noConfusion h
      next hcur =>
        split at h
        next => exact Except.noConfusion h
        next reduced hred =>
          split at h
          next => exact Except.noConfusion h
          next c d hhealth =>
            split at h
            next => exact Except.noConfusion h
            next hcd =>
              split at h
              next => exact Except.noConfusion h
              next avail havail =>
                split at h
                next => exact Except.noConfusion h
                next hliq =>
                  split at h
                  next => exact Except.noConfusion h
                  next ts hts =>
                    have hinj := Except.ok.inj h
                    rw [Prod.mk.injEq] at hinj
                    obtain ⟨hs', hevs⟩ := hinj
                    have hred' := cSub_some hred
                    have havail' := cSub_some havail
                    have hts' := cSub_some hts
                    subst hred' havail' hts'
                    exact ⟨by omega, pool, get_pool_ok hpool, hcur,
                      hred, ⟨c, d, hhealth, hcd⟩, havail, hliq, hts,
                      hs'.symm, hevs.symm⟩

theorem withdraw_err {s : State} {user token : Addr} {amount : Int}
    {e : Err} {s' : State} {evs : List TransferEv}
    (h : withdraw s user token amount = .error (e, s', evs)) : s' = s := by
  simp only [withdraw] at h
  repeat' split at h
  all_goals first
    | exact Except.noConfusion h
    | exact (congrArg (fun t => t.2.1) (Except.error.inj h)).symm

theorem repay_ok {s : State} {user token : Addr} {amount : Int}
    {s' : State} {evs : List TransferEv}
    (h : repay s user token amount = .ok (s', evs)) :
    0 < amount ∧
    ∃ pool, aGet s.pools token = some pool ∧
      mGetD (get_user_pos s user).debt_shares token ≠ 0 ∧
      (let current := mGetD (get_user_pos s user).debt_shares token
       let actual := min amount current
       cSub current actual = some (current - actual) ∧
       cSub pool.total_debt_shares actual
         = some (pool.total_debt_shares - actual) ∧
       s' = save_user_pos
              (save_pool s token
                { pool with
                  total_debt_shares := pool.total_debt_shares - actual })
              user
              { get_user_pos s user with
                debt_shares :=
                  aSet (get_user_pos s user).debt_shares token
                    (current - actual) } ∧
       evs = [⟨Dir.toContract, user, token, actual⟩]) := by
  simp only [repay] at h
  split at h
  next => exact Except.noConfusion h
  next hle =>
    split at h
    next => exact Except.noConfusion h
    next pool hpool =>
      split at h
      next => exact Except.noConfusion h
      next hcur =>
        split at h
        next => exact Except.noConfusion h
        next reduced hred =>
          split at h
          next => exact Except.noConfusion h
          next tb htb =>
            have hinj := Except.ok.inj h
            rw [Prod.mk.injEq] at hinj
            obtain ⟨hs', hevs⟩ := hinj
            have hred' := cSub_some hred
            have htb' := cSub_some htb
            subst hred' htb'
            exact ⟨by omega, pool, get_pool_ok hpool, hcur, hred, htb,
              hs'.symm, hevs.symm⟩

theorem repay_err {s : State} {user token : Addr} {amount : Int}
    {e : Err} {s' : State} {evs : List TransferEv}
    (h : repay s user token amount = .error (e, s', evs)) : s' = s := by
  simp only [repay] at h
  repeat' split at h
  all_goals first
    | exact Except.noConfusion h
    | exact (congrArg (fun t => t.2.1) (Except.error.inj h)).symm

theorem borrow_ok {s : State} {user token : Addr} {amount : Int}
    {s' : State} {evs : List TransferEv}
    (h : borrow s user token amount = .ok (s', evs)) :
    0 < amount ∧
    ∃ c d, get_user_health s (get_user_pos s user) = .ok (c, d) ∧
      0 < get_price s token ∧
      cMul amount (get_price s token) = some (amount * get_price s token) ∧
      cAdd d (amount * get_price s token)
        = some (d + amount * get_price s token) ∧
      ¬ c < d + amount * get_price s token ∧
      ∃ pool, aGet s.pools token = some pool ∧
        cSub pool.total_supply_shares pool.total_debt_shares
          = some (pool.total_supply_shares - pool.total_debt_shares) ∧
        ¬ amount > pool.total_supply_shares - pool.total_debt_shares ∧
        cAdd (mGetD (get_user_pos s user).debt_shares token) amount
          = some (mGetD (get_user_pos s user).debt_shares token + amount) ∧
        cAdd pool.total_debt_shares amount
          = some (pool.total_debt_shares + amount) ∧
        s' = save_user_pos
               (save_pool s token
                 { pool with
                   total_debt_shares := pool.total_debt_shares + amount })
               user
               { get_user_pos s user with
                 debt_shares :=
                   aSet (get_user_pos s user).debt_shares token
                     (mGetD (get_user_pos s user).debt_shares token + amount) } ∧
        evs = [⟨Dir.toUser, user, token, amount⟩] := by
  simp only [borrow] at h
  split at h
  next => exact Except.noConfusion h
  next hle =>
    split at h
    next => exact Except.noConfusion h
    next c d hhealth =>
      split at h
      next => exact Except.noConfusion h
      next hprice =>
        split at h
        next => exact Except.noConfusion h
        next ndv hndv =>
          split at h
          next => exact Except.noConfusion h
          next d' hd' =>
            split at h
            next => exact Except.noConfusion h
            next hcd =>
              split at h
              next => exact Except.noConfusion h
              next pool hpool =>
                split at h
                next => exact Except.noConfusion h
                next avail havail =>
                  split at h
                  next => exact Except.noConfusion h
                  next hliq =>
                    split at h
                    next => exact Except.noConfusion h
                    next nd hnd =>
                      split at h
                      next => exact Except.noConfusion h
                      next tb htb =>
                        have hinj := Except.ok.inj h
                        rw [Prod.mk.injEq] at hinj
                        obtain ⟨hs', hevs⟩ := hinj
                        have hndv' := cMul_some hndv
                        subst hndv'
                        have hd'' := cAdd_some hd'
                        subst hd''
                        have havail' := cSub_some havail
                        subst havail'
                        have hnd' := cAdd_some hnd
                        subst hnd'
                        have htb' := cAdd_some htb
                        subst htb'
                        refine ⟨by omega, c, d, hhealth, by omega, hndv, hd',
                          hcd, pool, get_pool_ok hpool, havail, hliq, hnd,
                          htb, hs'.symm, hevs.symm⟩

theorem borrow_err {s : State} {user token : Addr} {amount : Int}
    {e : Err} {s' : State} {evs : List TransferEv}
    (h : borrow s user token amount = .error (e, s', evs)) : s' = s := by
  simp only [borrow] at h
  repeat' split at h
  all_goals first
    | exact Except.noConfusion h
    | exact (congrArg (fun t => t.2.1) (Except.error.inj h)).symm

theorem init_pool_ok {s : State} {token : Addr} {s' : State}
    (h : init_pool s token = .ok s') :
    aGet s.pools token = none ∧
    s' = { s with
           pools := aSet s.pools token
             { token := token
               total_supply_shares := 0
               total_debt_shares := 0
               total_reserves := 0 }
           ltvs := aSet s.ltvs token 0
           prices := aSet s.prices token 0 } := by
  simp only [init_pool] at h
  split at h
  next => exact Except.noConfusion h
  next hnone => exact ⟨hnone, (Except.ok.inj h).symm⟩

theorem set_ltv_ok {s : State} {token : Addr} {ltv : Nat} {s' : State}
    (h : set_ltv s token ltv = .ok s') :
    ltv ≤ 10000 ∧ s' = { s with ltvs := aSet s.ltvs token ltv } := by
  simp only [set_ltv] at h
  split at h
  next => exact Except.noConfusion h
  next hle => exact ⟨by omega, (Except.ok.inj h).symm⟩

theorem set_price_ok {s : State} {token : Addr} {price : Int} {s' : State}
    (h : set_price s token price = .ok s') :
    0 ≤ price ∧ s' = { s with prices := aSet s.prices token price } := by
  simp only [set_price] at h
  split at h
  next => exact Except.noConfusion h
  next hle => exact ⟨by omega, (Except.ok.inj h).symm⟩

/-! ## Reachable states and the global invariant -/

/-- Sum over all stored positions of the deposit recorded for `asset`. -/
def sumDeposits (ps : List (Addr × UserPosition)) (asset : Addr) : Int :=
  termSum (fun p => mGetD p.2.deposit_shares asset) ps

/-- Sum over all stored positions of the debt recorded for `asset`. -/
def sumDebts (ps : List (Addr × UserPosition)) (asset : Addr) : Int :=
  termSum (fun p => mGetD p.2.debt_shares asset) ps

/-- `total_supply_shares` of the pool for `asset`, `0` when uninitialized. -/
def poolTS (s : State) (asset : Addr) : Int :=
  match aGet s.pools asset with
  | some p => p.total_supply_shares
  | none => 0

/-- `total_debt_shares` of the pool for `asset`, `0` when uninitialized. -/
def poolTB (s : State) (asset : Addr) : Int :=
  match aGet s.pools asset with
  | some p => p.total_debt_shares
  | none => 0

/-- The empty storage of a freshly deployed contract. -/
def deployState : State := ⟨[], [], [], []⟩

/-- States reachable from deployment by any sequence of successful
administrative calls and core operations. -/
inductive Reach : State → Prop where
  | deployed : Reach deployState
  | step_init_pool {s s' : State} {t : Addr} :
      Reach s → init_pool s t = .ok s' → Reach s'
  | step_set_ltv {s s' : State} {t : Addr} {v : Nat} :
      Reach s → set_ltv s t v = .ok s' → Reach s'
  | step_set_price {s s' : State} {t : Addr} {p : Int} :
      Reach s → set_price s t p = .ok s' → Reach s'
  | step_supply {s s' : State} {u t : Addr} {a : Int} {evs : List TransferEv} :
      Reach s → supply s u t a = .ok (s', evs) → Reach s'
  | step_withdraw {s s' : State} {u t : Addr} {a : Int} {evs : List TransferEv} :
      Reach s → withdraw s u t a = .ok (s', evs) → Reach s'
  | step_repay {s s' : State} {u t : Addr} {a : Int} {evs : List TransferEv} :
      Reach s → repay s u t a = .ok (s', evs) → Reach s'
  | step_borrow {s s' : State} {u t : Addr} {a : Int} {evs : List TransferEv} :
      Reach s → borrow s u t a = .ok (s', evs) → Reach s'

/-- The inductive invariant over reachable storage. -/
structure ContractInv (s : State) : Prop where
  pools_nodup : (s.pools.map Prod.fst).Nodup
  positions_nodup : (s.positions.map Prod.fst).Nodup
  deposits_nonneg : ∀ p ∈ s.positions, ∀ q ∈ p.2.deposit_shares, 0 ≤ q.2
  debts_nonneg : ∀ p ∈ s.positions, ∀ q ∈ p.2.debt_shares, 0 ≤ q.2
  liquidity : ∀ p ∈ s.pools, p.2.total_debt_shares ≤ p.2.total_supply_shares
  cons_sup : ∀ a, sumDeposits s.positions a = poolTS s a
  cons_debt : ∀ a, sumDebts s.positions a = poolTB s a

/-! ### Small helpers for the preservation proofs -/

theorem mGetD_nonneg {m : List (Addr × Int)} (hm : ∀ q ∈ m, 0 ≤ q.2)
    (k : Addr) : 0 ≤ mGetD m k := by
  unfold mGetD
  cases hg : aGet m k with
  | none => exact le_refl 0
  | some v => exact hm (k, v) (mem_of_aGet hg)

theorem get_user_pos_deposits_nonneg {s : State} (hs : ContractInv s) (u : Addr) :
    ∀ q ∈ (get_user_pos s u).deposit_shares, 0 ≤ q.2 := by
  unfold get_user_pos
  cases hg : aGet s.positions u with
  | none => intro q hq; simp at hq
  | some pos => exact hs.deposits_nonneg (u, pos) (mem_of_aGet hg)

theorem get_user_pos_debts_nonneg {s : State} (hs : ContractInv s) (u : Addr) :
    ∀ q ∈ (get_user_pos s u).debt_shares, 0 ≤ q.2 := by
  unfold get_user_pos
  cases hg : aGet s.positions u with
  | none => intro q hq; simp at hq
  | some pos => exact hs.debts_nonneg (u, pos) (mem_of_aGet hg)

theorem sumDeposits_aSet (ps : List (Addr × UserPosition)) (u : Addr)
    (pos' : UserPosition) (a : Addr) :
    sumDeposits (aSet ps u pos') a =
      sumDeposits ps a
        - optTerm (fun p => mGetD p.2.deposit_shares a) u (aGet ps u)
        + mGetD pos'.deposit_shares a :=
  termSum_aSet _ ps u pos'

theorem sumDebts_aSet (ps : List (Addr × UserPosition)) (u : Addr)
    (pos' : UserPosition) (a : Addr) :
    sumDebts (aSet ps u pos') a =
      sumDebts ps a
        - optTerm (fun p => mGetD p.2.debt_shares a) u (aGet ps u)
        + mGetD pos'.debt_shares a :=
  termSum_aSet _ ps u pos'

theorem optTerm_deposits (s : State) (u a : Addr) :
    optTerm (fun p => mGetD p.2.deposit_shares a) u (aGet s.positions u)
      = mGetD (get_user_pos s u).deposit_shares a := by
  unfold get_user_pos
  cases hg : aGet s.positions u with
  | none => simp [optTerm, mGetD, aGet]
  | some pos => simp [optTerm]

theorem optTerm_debts (s : State) (u a : Addr) :
    optTerm (fun p => mGetD p.2.debt_shares a) u (aGet s.positions u)
      = mGetD (get_user_pos s u).debt_shares a := by
  unfold get_user_pos
  cases hg : aGet s.positions u with
  | none => simp [optTerm, mGetD, aGet]
  | some pos => simp [optTerm]

theorem poolTS_of_aGet {s : State} {t : Addr} {pool : Pool}
    (h : aGet s.pools t = some pool) : poolTS s t = pool.total_supply_shares := by
  unfold poolTS
  rw [h]

theorem poolTB_of_aGet {s : State} {t : Addr} {pool : Pool}
    (h : aGet s.pools t = some pool) : poolTB s t = pool.total_debt_shares := by
  unfold poolTB
  rw [h]

/-- Master step for the invariant: each core operation updates one pool and
one position; when the per-asset deltas of the position match the deltas of
the pool totals, the invariant carries over. -/
theorem contract_inv_update {s : State} {t u : Addr} {pool pool' : Pool}
    {pos' : UserPosition} (hs : ContractInv s)
    (hpool : aGet s.pools t = some pool)
    (hliq' : pool'.total_debt_shares ≤ pool'.total_supply_shares)
    (hdep : ∀ q ∈ pos'.deposit_shares, 0 ≤ q.2)
    (hdebt : ∀ q ∈ pos'.debt_shares, 0 ≤ q.2)
    (hdsup : mGetD pos'.deposit_shares t
        - mGetD (get_user_pos s u).deposit_shares t
        = pool'.total_supply_shares - pool.total_supply_shares)
    (hssup : ∀ a, a ≠ t → mGetD pos'.deposit_shares a
        = mGetD (get_user_pos s u).deposit_shares a)
    (hddebt : mGetD pos'.debt_shares t
        - mGetD (get_user_pos s u).debt_shares t
        = pool'.total_debt_shares - pool.total_debt_shares)
    (hsdebt : ∀ a, a ≠ t → mGetD pos'.debt_shares a
        = mGetD (get_user_pos s u).debt_shares a) :
    ContractInv (save_user_pos (save_pool s t pool') u pos') := by
  constructor
  · exact nodup_keys_aSet s.pools t pool' hs.pools_nodup
  · exact nodup_keys_aSet s.positions u pos' hs.positions_nodup
  · intro p hp q hq
    rcases mem_aSet s.positions u pos' p hp with h | h
    · subst h; exact hdep q hq
    · exact hs.deposits_nonneg p h q hq
  · intro p hp q hq
    rcases mem_aSet s.positions u pos' p hp with h | h
    · subst h; exact hdebt q hq
    · exact hs.debts_nonneg p h q hq
  · intro p hp
    rcases mem_aSet s.pools t pool' p hp with h | h
    · subst h; exact hliq'
    · exact hs.liquidity p h
  · intro a
    show sumDeposits (aSet s.positions u pos') a
      = poolTS (save_user_pos (save_pool s t pool') u pos') a
    rw [sumDeposits_aSet, optTerm_deposits]
    have hold := hs.cons_sup a
    by_cases hat : a = t
    · subst hat
      have hnew : poolTS (save_user_pos (save_pool s a pool') u pos') a
          = pool'.total_supply_shares := by
        unfold poolTS
        rw [show (save_user_pos (save_pool s a pool') u pos').pools
              = aSet s.pools a pool' from rfl]
        rw [aGet_aSet_self]
      rw [hnew, hold, poolTS_of_aGet hpool]
      omega
    · have hnew : poolTS (save_user_pos (save_pool s t pool') u pos') a
          = poolTS s a := by
        unfold poolTS
        rw [show (save_user_pos (save_pool s t pool') u pos').pools
              = aSet s.pools t pool' from rfl]
        rw [aGet_aSet_ne s.pools t a pool' (fun h => hat h.symm)]
      rw [hnew, hold, hssup a hat]
      omega
  · intro a
    show sumDebts (aSet s.positions u pos') a
      = poolTB (save_user_pos (save_pool s t pool') u pos') a
    rw [sumDebts_aSet, optTerm_debts]
    have hold := hs.cons_debt a
    by_cases hat : a = t
    · subst hat
      have hnew : poolTB (save_user_pos (save_pool s a pool') u pos') a
          = pool'.total_debt_shares := by
        unfold poolTB
        rw [show (save_user_pos (save_pool s a pool') u pos').pools
              = aSet s.pools a pool' from rfl]
        rw [aGet_aSet_self]
      rw [hnew, hold, poolTB_of_aGet hpool]
      omega
    · have hnew : poolTB (save_user_pos (save_pool s t pool') u pos') a
          = poolTB s a := by
        unfold poolTB
        rw [show (save_user_pos (save_pool s t pool') u pos').pools
              = aSet s.pools t pool' from rfl]
        rw [aGet_aSet_ne s.pools t a pool' (fun h => hat h.symm)]
      rw [hnew, hold, hsdebt a hat]
      omega

theorem supply_preserves_inv {s s' : State} {u t : Addr} {a : Int}
    {evs : List TransferEv} (hs : ContractInv s)
    (h : supply s u t a = .ok (s', evs)) : ContractInv s' := by
  obtain ⟨ha, pool, hpool, hnd, hts, heq, hevs⟩ := supply_ok h
  subst heq
  have hold : 0 ≤ mGetD (get_user_pos s u).deposit_shares t :=
    mGetD_nonneg (get_user_pos_deposits_nonneg hs u) t
  have hlq : pool.total_debt_shares ≤ pool.total_supply_shares :=
    hs.liquidity (t, pool) (mem_of_aGet hpool)
  apply contract_inv_update hs hpool
  · show pool.total_debt_shares ≤ pool.total_supply_shares + a
    omega
  · intro q hq
    rcases mem_aSet _ t _ q hq with h' | h'
    · subst h'
      show 0 ≤ mGetD (get_user_pos s u).deposit_shares t + a
      omega
    · exact get_user_pos_deposits_nonneg hs u q h'
  · exact get_user_pos_debts_nonneg hs u
  · show mGetD (aSet (get_user_pos s u).deposit_shares t
        (mGetD (get_user_pos s u).deposit_shares t + a)) t
      - mGetD (get_user_pos s u).deposit_shares t
      = pool.total_supply_shares + a - pool.total_supply_shares
    rw [mGetD_aSet_self]
    omega
  · intro a0 h0
    exact mGetD_aSet_ne _ t a0 _ (Ne.symm h0)
  · show mGetD (get_user_pos s u).debt_shares t
      - mGetD (get_user_pos s u).debt_shares t
      = pool.total_debt_shares - pool.total_debt_shares
    omega
  · intro a0 h0
    rfl

theorem withdraw_preserves_inv {s s' : State} {u t : Addr} {a : Int}
    {evs : List TransferEv} (hs : ContractInv s)
    (h : withdraw s u t a = .ok (s', evs)) : ContractInv s' := by
  obtain ⟨ha, pool, hpool, hcur, hred, hhealth, havail, hliq, hts, heq, hevs⟩ :=
    withdraw_ok h
  subst heq
  have hold : 0 ≤ mGetD (get_user_pos s u).deposit_shares t :=
    mGetD_nonneg (get_user_pos_deposits_nonneg hs u) t
  have hlq : pool.total_debt_shares ≤ pool.total_supply_shares :=
    hs.liquidity (t, pool) (mem_of_aGet hpool)
  have hminle : min a (mGetD (get_user_pos s u).deposit_shares t)
      ≤ mGetD (get_user_pos s u).deposit_shares t := min_le_right _ _
  apply contract_inv_update hs hpool
  · show pool.total_debt_shares ≤ pool.total_supply_shares
      - min a (mGetD (get_user_pos s u).deposit_shares t)
    omega
  · intro q hq
    rcases mem_aSet _ t _ q hq with h' | h'
    · subst h'
      show 0 ≤ mGetD (get_user_pos s u).deposit_shares t
        - min a (mGetD (get_user_pos s u).deposit_shares t)
      omega
    · exact get_user_pos_deposits_nonneg hs u q h'
  · exact get_user_pos_debts_nonneg hs u
  · show mGetD (aSet (get_user_pos s u).deposit_shares t
        (mGetD (get_user_pos s u).deposit_shares t
          - min a (mGetD (get_user_pos s u).deposit_shares t))) t
      - mGetD (get_user_pos s u).deposit_shares t
      = pool.total_supply_shares
          - min a (mGetD (get_user_pos s u).deposit_shares t)
        - pool.total_supply_shares
    rw [mGetD_aSet_self]
    omega
  · intro a0 h0
    exact mGetD_aSet_ne _ t a0 _ (Ne.symm h0)
  · show mGetD (get_user_pos s u).debt_shares t
      - mGetD (get_user_pos s u).debt_shares t
      = pool.total_debt_shares - pool.total_debt_shares
    omega
  · intro a0 h0
    rfl

theorem repay_preserves_inv {s s' : State} {u t : Addr} {a : Int}
    {evs : List TransferEv} (hs : ContractInv s)
    (h : repay s u t a = .ok (s', evs)) : ContractInv s' := by
  obtain ⟨ha, pool, hpool, hcur, hred, htb, heq, hevs⟩ := repay_ok h
  subst heq
  have hold : 0 ≤ mGetD (get_user_pos s u).debt_shares t :=
    mGetD_nonneg (get_user_pos_debts_nonneg hs u) t
  have hlq : pool.total_debt_shares ≤ pool.total_supply_shares :=
    hs.liquidity (t, pool) (mem_of_aGet hpool)
  have hminnn : 0 ≤ min a (mGetD (get_user_pos s u).debt_shares t) :=
    le_min (le_of_lt ha) hold
  have hminle : min a (mGetD (get_user_pos s u).debt_shares t)
      ≤ mGetD (get_user_pos s u).debt_shares t := min_le_right _ _
  apply contract_inv_update hs hpool
  · show pool.total_debt_shares
        - min a (mGetD (get_user_pos s u).debt_shares t)
      ≤ pool.total_supply_shares
    omega
  · exact get_user_pos_deposits_nonneg hs u
  · intro q hq
    rcases mem_aSet _ t _ q hq with h' | h'
    · subst h'
      show 0 ≤ mGetD (get_user_pos s u).debt_shares t
        - min a (mGetD (get_user_pos s u).debt_shares t)
      omega
    · exact get_user_pos_debts_nonneg hs u q h'
  · show mGetD (get_user_pos s u).deposit_shares t
      - mGetD (get_user_pos s u).deposit_shares t
      = pool.total_supply_shares - pool.total_supply_shares
    omega
  · intro a0 h0
    rfl
  · show mGetD (aSet (get_user_pos s u).debt_shares t
        (mGetD (get_user_pos s u).debt_shares t
          - min a (mGetD (get_user_pos s u).debt_shares t))) t
      - mGetD (get_user_pos s u).debt_shares t
      = pool.total_debt_shares
          - min a (mGetD (get_user_pos s u).debt_shares t)
        - pool.total_debt_shares
    rw [mGetD_aSet_self]
    omega
  · intro a0 h0
    exact mGetD_aSet_ne _ t a0 _ (Ne.symm h0)

theorem borrow_preserves_inv {s s' : State} {u t : Addr} {a : Int}
    {evs : List TransferEv} (hs : ContractInv s)
    (h : borrow s u t a = .ok (s', evs)) : ContractInv s' := by
  obtain ⟨ha, c, d, hhealth, hprice, hmul, hadd, hcd, pool, hpool, havail,
    hliq, hnd, htb, heq, hevs⟩ := borrow_ok h
  subst heq
  have hold : 0 ≤ mGetD (get_user_pos s u).debt_shares t :=
    mGetD_nonneg (get_user_pos_debts_nonneg hs u) t
  have hlq : pool.total_debt_shares ≤ pool.total_supply_shares :=
    hs.liquidity (t, pool) (mem_of_aGet hpool)
  apply contract_inv_update hs hpool
  · show pool.total_debt_shares + a ≤ pool.total_supply_shares
    omega
  · exact get_user_pos_deposits_nonneg hs u
  · intro q hq
    rcases mem_aSet _ t _ q hq with h' | h'
    · subst h'
      show 0 ≤ mGetD (get_user_pos s u).debt_shares t + a
      omega
    · exact get_user_pos_debts_nonneg hs u q h'
  · show mGetD (get_user_pos s u).deposit_shares t
      - mGetD (get_user_pos s u).deposit_shares t
      = pool.total_supply_shares - pool.total_supply_shares
    omega
  · intro a0 h0
    rfl
  · show mGetD (aSet (get_user_pos s u).debt_shares t
        (mGetD (get_user_pos s u).debt_shares t + a)) t
      - mGetD (get_user_pos s u).debt_shares t
      = pool.total_debt_shares + a - pool.total_debt_shares
    rw [mGetD_aSet_self]
    omega
  · intro a0 h0
    exact mGetD_aSet_ne _ t a0 _ (Ne.symm h0)

theorem init_pool_preserves_inv {s s' : State} {t : Addr}
    (hs : ContractInv s) (h : init_pool s t = .ok s') : ContractInv s' := by
  obtain ⟨hnone, heq⟩ := init_pool_ok h
  subst heq
  constructor
  · exact nodup_keys_aSet s.pools t _ hs.pools_nodup
  · exact hs.positions_nodup
  · exact hs.deposits_nonneg
  · exact hs.debts_nonneg
  · intro p hp
    rcases mem_aSet s.pools t _ p hp with h' | h'
    · subst h'
      show (0 : Int) ≤ 0
      exact le_refl 0
    · exact hs.liquidity p h'
  · intro a
    have hold := hs.cons_sup a
    by_cases hat : a = t
    · subst hat
      have h0 : poolTS s a = 0 := by unfold poolTS; rw [hnone]
      show sumDeposits s.positions a = poolTS _ a
      rw [hold, h0]
      unfold poolTS
      rw [show ({ s with
            pools := aSet s.pools a
              { token := a
                total_supply_shares := 0
                total_debt_shares := 0
                total_reserves := 0 }
            ltvs := aSet s.ltvs a 0
            prices := aSet s.prices a 0 } : State).pools
          = aSet s.pools a
              { token := a
                total_supply_shares := 0
                total_debt_shares := 0
                total_reserves := 0 } from rfl]
      rw [aGet_aSet_self]
    · show sumDeposits s.positions a = poolTS _ a
      rw [hold]
      unfold poolTS
      rw [show ({ s with
            pools := aSet s.pools t
              { token := t
                total_supply_shares := 0
                total_debt_shares := 0
                total_reserves := 0 }
            ltvs := aSet s.ltvs t 0
            prices := aSet s.prices t 0 } : State).pools
          = aSet s.pools t
              { token := t
                total_supply_shares := 0
                total_debt_shares := 0
                total_reserves := 0 } from rfl]
      rw [aGet_aSet_ne s.pools t a _ (Ne.symm hat)]
  · intro a
    have hold := hs.cons_debt a
    by_cases hat : a = t
    · subst hat
      have h0 : poolTB s a = 0 := by unfold poolTB; rw [hnone]
      show sumDebts s.positions a = poolTB _ a
      rw [hold, h0]
      unfold poolTB
      rw [show ({ s with
            pools := aSet s.pools a
              { token := a
                total_supply_shares := 0
                total_debt_shares := 0
                total_reserves := 0 }
            ltvs := aSet s.ltvs a 0
            prices := aSet s.prices a 0 } : State).pools
          = aSet s.pools a
              { token := a
                total_supply_shares := 0
                total_debt_shares := 0
                total_reserves := 0 } from rfl]
      rw [aGet_aSet_self]
    · show sumDebts s.positions a = poolTB _ a
      rw [hold]
      unfold poolTB
      rw [show ({ s with
            pools := aSet s.pools t
              { token := t
                total_supply_shares := 0
                total_debt_shares := 0
                total_reserves := 0 }
            ltvs := aSet s.ltvs t 0
            prices := aSet s.prices t 0 } : State).pools
          = aSet s.pools t
              { token := t
                total_supply_shares := 0
                total_debt_shares := 0
                total_reserves := 0 } from rfl]
      rw [aGet_aSet_ne s.pools t a _ (Ne.symm hat)]

theorem set_ltv_preserves_inv {s s' : State} {t : Addr} {v : Nat}
    (hs : ContractInv s) (h : set_ltv s t v = .ok s') : ContractInv s' := by
  obtain ⟨hle, heq⟩ := set_ltv_ok h
  subst heq
  exact ⟨hs.pools_nodup, hs.positions_nodup, hs.deposits_nonneg,
    hs.debts_nonneg, hs.liquidity, hs.cons_sup, hs.cons_debt⟩

theorem set_price_preserves_inv {s s' : State} {t : Addr} {p : Int}
    (hs : ContractInv s) (h : set_price s t p = .ok s') : ContractInv s' := by
  obtain ⟨hle, heq⟩ := set_price_ok h
  subst heq
  exact ⟨hs.pools_nodup, hs.positions_nodup, hs.deposits_nonneg,
    hs.debts_nonneg, hs.liquidity, hs.cons_sup, hs.cons_debt⟩

/-- Every reachable storage satisfies the invariant. -/
theorem reach_contract_inv {s : State} (h : Reach s) : ContractInv s := by
  induction h with
  | deployed =>
    constructor
    · simp [deployState]
    · simp [deployState]
    · intro p hp; simp [deployState] at hp
    · intro p hp; simp [deployState] at hp
    · intro p hp; simp [deployState] at hp
    · intro a; simp [deployState, sumDeposits, termSum, poolTS, aGet]
    · intro a; simp [deployState, sumDebts, termSum, poolTB, aGet]
  | step_init_pool _ hok ih => exact init_pool_preserves_inv ih hok
  | step_set_ltv _ hok ih => exact set_ltv_preserves_inv ih hok
  | step_set_price _ hok ih => exact set_price_preserves_inv ih hok
  | step_supply _ hok ih => exact supply_preserves_inv ih hok
  | step_withdraw _ hok ih => exact withdraw_preserves_inv ih hok
  | step_repay _ hok ih => exact repay_preserves_inv ih hok
  | step_borrow _ hok ih => exact borrow_preserves_inv ih hok

/-! ## Further helpers for the claim theorems -/

theorem cAdd_of_inI128 {a b : Int} (h : inI128 (a + b)) :
    cAdd a b = some (a + b) := by
  unfold cAdd
  rw [if_pos h]

theorem cSub_of_inI128 {a b : Int} (h : inI128 (a - b)) :
    cSub a b = some (a - b) := by
  unfold cSub
  rw [if_pos h]

theorem cMul_of_inI128 {a b : Int} (h : inI128 (a * b)) :
    cMul a b = some (a * b) := by
  unfold cMul
  rw [if_pos h]

/-- After the two writes of a core operation, reading the user's position
returns the written position. -/
theorem get_user_pos_save (s : State) (t : Addr) (pool : Pool) (u : Addr)
    (pos : UserPosition) :
    get_user_pos (save_user_pos (save_pool s t pool) u pos) u = pos := by
  unfold get_user_pos save_user_pos save_pool
  simp [aGet_aSet_self]

theorem optTerm_debtTerm (s : State) (m : List (Addr × Int)) (t : Addr) :
    optTerm (debtTerm s) t (aGet m t) = mGetD m t * get_price s t := by
  unfold mGetD
  cases hg : aGet m t with
  | none => simp [optTerm]
  | some w => simp [optTerm, debtTerm]

theorem debtSum_aSet (s : State) (m : List (Addr × Int)) (t : Addr) (v : Int) :
    debtSum s (aSet m t v)
      = debtSum s m - mGetD m t * get_price s t + v * get_price s t := by
  unfold debtSum
  rw [termSum_aSet]
  rw [show optTerm (debtTerm s) t (aGet m t) = mGetD m t * get_price s t from
    optTerm_debtTerm s m t]
  rfl

theorem debtSum_zero (s : State) (l : List (Addr × Int))
    (h : ∀ q ∈ l, q.2 = 0) : debtSum s l = 0 := by
  induction l with
  | nil => rfl
  | cons p rest ih =>
    unfold debtSum at *
    rw [termSum_cons]
    have hp : p.2 = 0 := h p (List.mem_cons_self p rest)
    have : debtTerm s p = 0 := by unfold debtTerm; rw [hp]; ring
    rw [this, ih (fun q hq => h q (List.mem_cons_of_mem p hq))]
    ring

theorem get_price_nonneg {s : State} (h : ∀ q ∈ s.prices, 0 ≤ q.2)
    (t : Addr) : 0 ≤ get_price s t := by
  unfold get_price
  cases hg : aGet s.prices t with
  | none => exact le_refl 0
  | some v => exact h (t, v) (mem_of_aGet hg)

theorem collatTerm_nonneg {s : State} {q : Addr × Int} (hq : 0 ≤ q.2)
    (hp : 0 ≤ get_price s q.1) : 0 ≤ collatTerm s q := by
  unfold collatTerm
  apply Int.tdiv_nonneg
  · have h1 : 0 ≤ q.2 * get_price s q.1 := mul_nonneg hq hp
    have h2 : (0 : Int) ≤ Int.ofNat (get_ltv s q.1) := Int.ofNat_nonneg _
    exact mul_nonneg h1 h2
  · norm_num

theorem collatSum_nonneg {s : State} {l : List (Addr × Int)}
    (h : ∀ q ∈ l, 0 ≤ q.2) (hp : ∀ q ∈ s.prices, 0 ≤ q.2) :
    0 ≤ collatSum s l := by
  induction l with
  | nil => exact le_refl 0
  | cons p rest ih =>
    unfold collatSum at *
    rw [termSum_cons]
    have h1 := collatTerm_nonneg (h p (List.mem_cons_self p rest))
      (get_price_nonneg hp p.1)
    have h2 := ih (fun q hq => h q (List.mem_cons_of_mem p hq))
    omega

/-- On non-negative products the truncating collateral sum agrees with the
floor formula of the specification. -/
theorem collatSum_eq_floor {s : State} {l : List (Addr × Int)}
    (h : ∀ q ∈ l, 0 ≤ q.2 * get_price s q.1) :
    collatSum s l
      = (l.map (fun p =>
          Int.fdiv (p.2 * get_price s p.1 * Int.ofNat (get_ltv s p.1)) 10000)).sum := by
  induction l with
  | nil => rfl
  | cons p rest ih =>
    unfold collatSum at *
    rw [termSum_cons, List.map_cons, List.sum_cons,
      ih (fun q hq => h q (List.mem_cons_of_mem p hq))]
    have hnum : 0 ≤ p.2 * get_price s p.1 * Int.ofNat (get_ltv s p.1) :=
      mul_nonneg (h p (List.mem_cons_self p rest)) (Int.ofNat_nonneg _)
    have : collatTerm s p
        = Int.fdiv (p.2 * get_price s p.1 * Int.ofNat (get_ltv s p.1)) 10000 := by
      unfold collatTerm
      rw [Int.tdiv_eq_ediv hnum (by norm_num), Int.fdiv_eq_ediv _ (by norm_num)]
    rw [this]

/-! ## Concrete scenario states

The spec's §8 scenario: asset `0` with LTV 7500 and price `1_0000000`
(7 decimals); user `1` supplies 1000 and borrows 700. -/

set_option maxRecDepth 10000

def s1ex : State := ⟨[(0, ⟨0, 0, 0, 0⟩)], [], [(0, 0)], [(0, 0)]⟩
def s2ex : State := ⟨[(0, ⟨0, 0, 0, 0⟩)], [], [(0, 7500)], [(0, 0)]⟩
def s3ex : State := ⟨[(0, ⟨0, 0, 0, 0⟩)], [], [(0, 7500)], [(0, 10000000)]⟩
def s4ex : State :=
  ⟨[(0, ⟨0, 1000, 0, 0⟩)], [(1, ⟨[(0, 1000)], []⟩)], [(0, 7500)], [(0, 10000000)]⟩
def sA : State :=
  ⟨[(0, ⟨0, 1000, 700, 0⟩)], [(1, ⟨[(0, 1000)], [(0, 700)]⟩)],
   [(0, 7500)], [(0, 10000000)]⟩
def sB : State :=
  ⟨[(0, ⟨0, 950, 700, 0⟩)], [(1, ⟨[(0, 950)], [(0, 700)]⟩)],
   [(0, 7500)], [(0, 10000000)]⟩

theorem reach_sA : Reach sA := by
  have h1 : init_pool deployState 0 = .ok s1ex := rfl
  have h2 : set_ltv s1ex 0 7500 = .ok s2ex := rfl
  have h3 : set_price s2ex 0 10000000 = .ok s3ex := rfl
  have h4 : supply s3ex 1 0 1000 = .ok (s4ex, [⟨Dir.toContract, 1, 0, 1000⟩]) := rfl
  have h5 : borrow s4ex 1 0 700 = .ok (sA, [⟨Dir.toUser, 1, 0, 700⟩]) := rfl
  exact Reach.step_borrow (Reach.step_supply (Reach.step_set_price
    (Reach.step_set_ltv (Reach.step_init_pool Reach.deployed h1) h2) h3) h4) h5

/-! ## Claim theorems -/

/-- **C2** (liquidity invariant): in every state reachable from the
freshly deployed contract — that is, starting from the all-zero pool
created by `init_pool` — after any sequence of `supply`, `withdraw`,
`repay` and `borrow` operations (and administrative calls), every pool
satisfies `total_borrowed ≤ total_supplied`, so the available liquidity
`total_supplied - total_borrowed` is never negative. -/
theorem liquidity_invariant_reachable {s : State} {t : Addr} {pool : Pool}
    (hr : Reach s) (hpool : aGet s.pools t = some pool) :
    pool.total_debt_shares ≤ pool.total_supply_shares :=
  (reach_contract_inv hr).liquidity (t, pool) (mem_of_aGet hpool)

theorem liquidity_invariant_witness :
    (Pool.mk 0 1000 700 0).total_debt_shares
      ≤ (Pool.mk 0 1000 700 0).total_supply_shares :=
  @liquidity_invariant_reachable sA 0 ⟨0, 1000, 700, 0⟩ reach_sA rfl

/-- **C3** (conservation): in every reachable state — starting from
`init_pool`'s all-zero pool and no stored positions — the sum over all
stored user positions of `deposits[asset]` equals that asset's
`total_supply_shares`, and the sum of `debts[asset]` equals its
`total_debt_shares`.  (Reachable states have duplicate-free user keys,
`ContractInv.positions_nodup`, so the entry sums are sums over users.) -/
theorem conservation_reachable {s : State} (hr : Reach s) (asset : Addr)
    {pool : Pool} (hpool : aGet s.pools asset = some pool) :
    sumDeposits s.positions asset = pool.total_supply_shares ∧
    sumDebts s.positions asset = pool.total_debt_shares := by
  have hi := reach_contract_inv hr
  exact ⟨by rw [hi.cons_sup asset, poolTS_of_aGet hpool],
    by rw [hi.cons_debt asset, poolTB_of_aGet hpool]⟩

theorem conservation_witness :
    sumDeposits sA.positions 0 = (Pool.mk 0 1000 700 0).total_supply_shares ∧
    sumDebts sA.positions 0 = (Pool.mk 0 1000 700 0).total_debt_shares :=
  @conservation_reachable sA reach_sA 0 ⟨0, 1000, 700, 0⟩ rfl

theorem get_user_health_save (s : State) (t : Addr) (pool : Pool) (u : Addr)
    (pos pos2 : UserPosition) :
    get_user_health (save_user_pos (save_pool s t pool) u pos) pos2
      = get_user_health s pos2 :=
  @get_user_health_congr s (save_user_pos (save_pool s t pool) u pos) rfl rfl pos2

theorem poolTS_save (s : State) (t : Addr) (pool : Pool) (u : Addr)
    (pos : UserPosition) :
    poolTS (save_user_pos (save_pool s t pool) u pos) t
      = pool.total_supply_shares := by
  unfold poolTS save_user_pos save_pool
  simp [aGet_aSet_self]

/-- **C1** (solvency): immediately after a `withdraw` or a `borrow` call
returns successfully, evaluating the Health Evaluator on the user's
persisted position — with the prices and LTVs in effect at the call, which
the operation leaves untouched (`s'.prices = s.prices`,
`s'.ltvs = s.ltvs`) — yields `debt_value ≤ collateral_value` whenever the
evaluation succeeds.  Proved for every state, hence in particular for
every reachable state. -/
theorem solvency_after_withdraw_or_borrow
    {s s' : State} {u t : Addr} {a : Int} {evs : List TransferEv} {c d : Int}
    (hop : withdraw s u t a = .ok (s', evs) ∨ borrow s u t a = .ok (s', evs))
    (hh : get_user_health s' (get_user_pos s' u) = .ok (c, d)) :
    d ≤ c ∧ s'.prices = s.prices ∧ s'.ltvs = s.ltvs := by
  rcases hop with hw | hb
  · obtain ⟨ha, pool, hpool, hcur, hred, ⟨c0, d0, hh0, hcd⟩, havail, hliq, hts,
      heq, hevs⟩ := withdraw_ok hw
    subst heq
    rw [get_user_pos_save] at hh
    rw [get_user_health_save] at hh
    rw [hh0] at hh
    have hinj := Except.ok.inj hh
    rw [Prod.mk.injEq] at hinj
    obtain ⟨hc, hd⟩ := hinj
    subst hc
    subst hd
    exact ⟨not_lt.1 hcd, rfl, rfl⟩
  · obtain ⟨ha, c0, d0, hh0, hprice, hmul, hadd, hcd, pool, hpool, havail,
      hliq, hnd, htb, heq, hevs⟩ := borrow_ok hb
    subst heq
    rw [get_user_pos_save] at hh
    rw [get_user_health_save] at hh
    have hok1 := get_user_health_ok hh
    have hok0 := get_user_health_ok hh0
    have hc : c = c0 := by
      rw [hok1.1]
      exact hok0.1.symm
    have hd : d = d0 + a * get_price s t := by
      rw [hok1.2]
      show debtSum s (aSet (get_user_pos s u).debt_shares t
        (mGetD (get_user_pos s u).debt_shares t + a)) = d0 + a * get_price s t
      rw [debtSum_aSet]
      rw [← hok0.2]
      ring
    refine ⟨?_, rfl, rfl⟩
    rw [hc, hd]
    exact not_lt.1 hcd

theorem solvency_witness :
    (7000000000 : Int) ≤ 7125000000 ∧ sB.prices = sA.prices ∧ sB.ltvs = sA.ltvs :=
  solvency_after_withdraw_or_borrow
    (Or.inl (rfl : withdraw sA 1 0 50 = .ok (sB, [⟨Dir.toUser, 1, 0, 50⟩])))
    (rfl : get_user_health sB (get_user_pos sB 1) = .ok (7125000000, 7000000000))

/-- The collateral-value formula exactly as the specification words it:
`Σ floor(amount * price(asset) * ltv(asset) / 10000)` with *floor*
division.  Second definition written from the spec, for comparison with
the code's `get_user_health`. -/
def spec_collateral_floor (s : State) (l : List (Addr × Int)) : Int :=
  (l.map (fun p =>
    Int.fdiv (p.2 * get_price s p.1 * Int.ofNat (get_ltv s p.1)) 10000)).sum

/-- The debt-value formula as the specification words it:
`Σ amount * price(asset)`. -/
def spec_debt_value (s : State) (l : List (Addr × Int)) : Int :=
  (l.map (fun p => p.2 * get_price s p.1)).sum

/-- **C4 counterexample**: the claim states the Health Evaluator returns
`Σ floor(amount*price*ltv/10000)` for *every* position, but Rust's `/`
truncates toward zero: on a position with deposit amount `-1` (price 1,
LTV 1) the evaluator returns collateral `0` while the floor formula gives
`-1`. -/
theorem health_floor_spec_cex :
    get_user_health ⟨[], [], [(0, 1)], [(0, 1)]⟩ ⟨[(0, -1)], []⟩ = .ok (0, 0) ∧
    spec_collateral_floor ⟨[], [], [(0, 1)], [(0, 1)]⟩ [(0, -1)] = -1 :=
  ⟨rfl, rfl⟩

/-- **C4 (amended)**: for every position, when `get_user_health` succeeds
it returns `collateral_value = Σ trunc(amount * price * ltv / 10000)`
(division truncating toward zero, Rust `/` semantics) and
`debt_value = Σ amount * price`; every multiplication is checked 128-bit
arithmetic and the only error the evaluator ever raises is
`ArithmeticOverflow` (it never wraps or saturates); whenever every
summand product `amount * price` is non-negative — in particular on all
reachable positions — the truncating sum coincides with the floor formula
of the specification.  The evaluator is a pure function of the position,
prices and LTVs. -/
theorem health_eval_trunc_correct (s : State) (pos : UserPosition) :
    (∀ c d, get_user_health s pos = .ok (c, d) →
      c = collatSum s pos.deposit_shares ∧
      d = spec_debt_value s pos.debt_shares) ∧
    (∀ e, get_user_health s pos = .error e → e = .ArithmeticOverflow) ∧
    ((∀ q ∈ pos.deposit_shares, 0 ≤ q.2 * get_price s q.1) →
      collatSum s pos.deposit_shares
        = spec_collateral_floor s pos.deposit_shares) := by
  refine ⟨?_, ?_, ?_⟩
  · intro c d h
    have hok := get_user_health_ok h
    exact ⟨hok.1, hok.2⟩
  · intro e h
    exact get_user_health_err h
  · intro h
    exact collatSum_eq_floor h

theorem health_eval_trunc_witness :
    ((7500000000 : Int) = collatSum sA [(0, 1000)] ∧
     (7000000000 : Int) = spec_debt_value sA [(0, 700)]) :=
  (health_eval_trunc_correct sA ⟨[(0, 1000)], [(0, 700)]⟩).1
    7500000000 7000000000 rfl

theorem get_pool_err {s : State} {t : Addr} {e : Err}
    (h : get_pool s t = .error e) : e = .NotInitialized := by
  unfold get_pool at h
  cases hg : aGet s.pools t with
  | some p => rw [hg] at h; exact Except.noConfusion h
  | none => rw [hg] at h; exact (Except.error.inj h).symm

/-- **C5 counterexample**: the claim says `borrow` fails with
`InsufficientCollateral` *exactly when*
`collateral_value < debt_value + amount * price`.  With an empty position
(collateral 0, debt 0), `price = 2^100 > 0` and `amount = 2^100 > 0`, the
condition `0 < 0 + 2^200` holds, yet the code aborts earlier with
`ArithmeticOverflow` because `amount.checked_mul(price)` overflows
`i128`. -/
theorem borrow_collateral_iff_cex :
    borrow ⟨[], [], [], [(0, 2 ^ 100)]⟩ 0 0 (2 ^ 100)
      = .error (.ArithmeticOverflow, ⟨[], [], [], [(0, 2 ^ 100)]⟩, []) ∧
    (0 : Int) < 0 + 2 ^ 100 * 2 ^ 100 ∧
    Err.ArithmeticOverflow ≠ Err.InsufficientCollateral :=
  ⟨rfl, by decide, by decide⟩

/-- **C5 (amended)**: for `amount > 0` and `price(asset) > 0`, provided
the health evaluation of the user's current persisted (pre-borrow)
position succeeds with `(c, d)` and neither `amount * price` nor
`d + amount * price` overflows `i128`, `borrow` fails with
`InsufficientCollateral` exactly when `c < d + amount * price`.  The
failure carries the unchanged state and happens with no transfer; since
the equivalence holds with no assumption on the pool, the collateral
check indeed precedes both the pool read and the liquidity check, and
the newly borrowed funds are not counted as collateral. -/
theorem borrow_insufficient_collateral_iff {s : State} {u t : Addr}
    {a : Int} {c d : Int}
    (ha : 0 < a)
    (hh : get_user_health s (get_user_pos s u) = .ok (c, d))
    (hp : 0 < get_price s t)
    (hfit1 : inI128 (a * get_price s t))
    (hfit2 : inI128 (d + a * get_price s t)) :
    borrow s u t a = .error (.InsufficientCollateral, s, [])
      ↔ c < d + a * get_price s t := by
  constructor
  · intro h
    by_contra hlt
    simp only [borrow, hh, cMul_of_inI128 hfit1, cAdd_of_inI128 hfit2,
      if_neg (not_le.2 ha), if_neg (not_le.2 hp), if_neg hlt] at h
    split at h
    next e heq =>
      have he := get_pool_err heq
      subst he
      exact absurd (congrArg (fun x => x.1) (Except.error.inj h)) (by simp)
    next pool heq =>
      repeat' split at h
      all_goals first
        | exact Except.noConfusion h
        | exact absurd (congrArg (fun x => x.1) (Except.error.inj h)) (by simp)
  · intro hlt
    simp only [borrow, hh, cMul_of_inI128 hfit1, cAdd_of_inI128 hfit2,
      if_neg (not_le.2 ha), if_neg (not_le.2 hp), if_pos hlt]

theorem borrow_collateral_iff_witness :
    (borrow ⟨[], [], [], [(0, 5)]⟩ 0 0 1
        = .error (.InsufficientCollateral, ⟨[], [], [], [(0, 5)]⟩, []))
      ↔ (0 : Int) < 0 + 1 * 5 :=
  @borrow_insufficient_collateral_iff ⟨[], [], [], [(0, 5)]⟩ 0 0 1 0 0
    (by decide) rfl (by decide) (by decide) (by decide)

/-- **C6** (failure atomicity): whenever `supply`, `withdraw`, `repay` or
`borrow` fails with any error, the persisted storage at the abort point is
exactly the storage before the call — every panic in the source happens
before the first `save_pool` / `save_user_pos` write.  Moreover the
in-memory rollback of `withdraw`'s speculative deduction (source line 154,
`set(token, current)` after `set(token, current - actual)`) restores the
deposit map exactly: setting a present key back to its looked-up value is
the identity. -/
theorem failure_atomicity_and_rollback :
    (∀ (s : State) (u t : Addr) (a : Int) (e : Err) (s' : State)
        (evs : List TransferEv),
        supply s u t a = .error (e, s', evs) → s' = s) ∧
    (∀ (s : State) (u t : Addr) (a : Int) (e : Err) (s' : State)
        (evs : List TransferEv),
        withdraw s u t a = .error (e, s', evs) → s' = s) ∧
    (∀ (s : State) (u t : Addr) (a : Int) (e : Err) (s' : State)
        (evs : List TransferEv),
        repay s u t a = .error (e, s', evs) → s' = s) ∧
    (∀ (s : State) (u t : Addr) (a : Int) (e : Err) (s' : State)
        (evs : List TransferEv),
        borrow s u t a = .error (e, s', evs) → s' = s) ∧
    (∀ (m : List (Addr × Int)) (t : Addr) (cur actual : Int),
        aGet m t = some cur →
        aSet (aSet m t (cur - actual)) t cur = m) :=
  ⟨fun _ _ _ _ _ _ _ h => supply_err h,
   fun _ _ _ _ _ _ _ h => withdraw_err h,
   fun _ _ _ _ _ _ _ h => repay_err h,
   fun _ _ _ _ _ _ _ h => borrow_err h,
   fun m t cur actual h => aSet_aSet_restore m t (cur - actual) cur h⟩

theorem failure_atomicity_witness :
    aSet (aSet [(0, (5 : Int))] 0 (5 - 2)) 0 5 = [(0, 5)] :=
  failure_atomicity_and_rollback.2.2.2.2 [(0, 5)] 0 5 2 rfl

/-- Withdraw-capping scenario state: user `2` has deposited 10 of asset
`0`, no debt; the pool holds exactly that deposit. -/
def sC : State :=
  ⟨[(0, ⟨0, 10, 0, 0⟩)], [(2, ⟨[(0, 10)], []⟩)], [(0, 7500)], [(0, 10000000)]⟩

def sC' : State :=
  ⟨[(0, ⟨0, 0, 0, 0⟩)], [(2, ⟨[(0, 0)], []⟩)], [(0, 7500)], [(0, 10000000)]⟩

/-- **C7** (withdraw capping): when `withdraw` is called with `amount`
strictly greater than the user's current deposit and succeeds, it removes
exactly the full deposit (`actual = min(amount, current) = current`) from
`deposits[asset]` (leaving it 0) and from `Pool.total_supply_shares`, and
transfers exactly that capped amount, never more.  The witness shows the
over-sized request is not rejected: a concrete `withdraw` of 100 against a
deposit of 10 succeeds. -/
theorem withdraw_capping {s : State} {u t : Addr} {a : Int} {s' : State}
    {evs : List TransferEv}
    (hover : mGetD (get_user_pos s u).deposit_shares t < a)
    (h : withdraw s u t a = .ok (s', evs)) :
    mGetD (get_user_pos s' u).deposit_shares t = 0 ∧
    poolTS s' t = poolTS s t - mGetD (get_user_pos s u).deposit_shares t ∧
    evs = [⟨Dir.toUser, u, t, mGetD (get_user_pos s u).deposit_shares t⟩] := by
  obtain ⟨ha, pool, hpool, hcur, hred, hhealth, havail, hliq, hts, heq, hevs⟩ :=
    withdraw_ok h
  subst heq
  have hmin : min a (mGetD (get_user_pos s u).deposit_shares t)
      = mGetD (get_user_pos s u).deposit_shares t :=
    min_eq_right (le_of_lt hover)
  refine ⟨?_, ?_, ?_⟩
  · rw [get_user_pos_save]
    show mGetD (aSet (get_user_pos s u).deposit_shares t
      (mGetD (get_user_pos s u).deposit_shares t
        - min a (mGetD (get_user_pos s u).deposit_shares t))) t = 0
    rw [mGetD_aSet_self, hmin]
    omega
  · rw [poolTS_save, poolTS_of_aGet hpool]
    show pool.total_supply_shares
        - min a (mGetD (get_user_pos s u).deposit_shares t)
      = pool.total_supply_shares - mGetD (get_user_pos s u).deposit_shares t
    rw [hmin]
  · rw [hevs, hmin]

theorem withdraw_capping_witness :
    mGetD (get_user_pos sC' 2).deposit_shares 0 = 0 ∧
    poolTS sC' 0 = poolTS sC 0 - 10 ∧
    ([⟨Dir.toUser, 2, 0, 10⟩] : List TransferEv) = [⟨Dir.toUser, 2, 0, 10⟩] :=
  @withdraw_capping sC 2 0 100 sC' [⟨Dir.toUser, 2, 0, 10⟩] (by decide) rfl

/-- **C8 counterexample**: the claim says every operation on a
never-initialized asset fails with `NotInitialized`, but `borrow` checks
the price (defaulting to 0) *before* reading the pool, so on the freshly
deployed state it fails with `PriceNotSet` instead. -/
theorem uninitialized_borrow_cex :
    borrow deployState 0 0 1 = .error (.PriceNotSet, deployState, []) ∧
    Err.PriceNotSet ≠ Err.NotInitialized :=
  ⟨rfl, by decide⟩

/-- **C8 (amended)**: on an asset whose pool was never created by
`init_pool`, `supply`, `withdraw` and `repay` called with a positive
amount fail with `NotInitialized`, performing no transfer and leaving the
state unchanged; `borrow` — whose price check precedes its pool read —
fails with `PriceNotSet` whenever the asset's price is unset (`≤ 0`, the
default for a never-initialized asset) and the health evaluation of the
caller's position succeeds, likewise with no transfer. -/
theorem uninitialized_asset_errors {s : State} {u t : Addr} {a : Int}
    {c d : Int}
    (ha : 0 < a) (hnone : aGet s.pools t = none)
    (hh : get_user_health s (get_user_pos s u) = .ok (c, d))
    (hp : get_price s t ≤ 0) :
    supply s u t a = .error (.NotInitialized, s, []) ∧
    withdraw s u t a = .error (.NotInitialized, s, []) ∧
    repay s u t a = .error (.NotInitialized, s, []) ∧
    borrow s u t a = .error (.PriceNotSet, s, []) := by
  have hgp : get_pool s t = .error .NotInitialized := by
    unfold get_pool
    rw [hnone]
  refine ⟨?_, ?_, ?_, ?_⟩
  · simp only [supply, hgp, if_neg (not_le.2 ha)]
  · simp only [withdraw, hgp, if_neg (not_le.2 ha)]
  · simp only [repay, hgp, if_neg (not_le.2 ha)]
  · simp only [borrow, hh, if_neg (not_le.2 ha), if_pos hp]

theorem uninitialized_asset_errors_witness :
    supply deployState 0 0 1 = .error (.NotInitialized, deployState, []) ∧
    withdraw deployState 0 0 1 = .error (.NotInitialized, deployState, []) ∧
    repay deployState 0 0 1 = .error (.NotInitialized, deployState, []) ∧
    borrow deployState 0 0 1 = .error (.PriceNotSet, deployState, []) :=
  @uninitialized_asset_errors deployState 0 0 1 0 0 (by decide) rfl rfl
    (by decide)

/-- **C9 counterexample**: the claim says that with
`total_supplied = total_borrowed = 100` every further `withdraw` or
`borrow` fails with `InsufficientLiquidity` *regardless of the
requester's health* — but the collateral check runs first, so an
unhealthy requester gets `InsufficientCollateral` instead (user `1` has
deposit 10 at LTV 0 and debt 100 at price 1). -/
theorem liquidity_exhaustion_cex :
    withdraw ⟨[(0, ⟨0, 100, 100, 0⟩)], [(1, ⟨[(0, 10)], [(0, 100)]⟩)],
        [(0, 0)], [(0, 1)]⟩ 1 0 5
      = .error (.InsufficientCollateral,
          ⟨[(0, ⟨0, 100, 100, 0⟩)], [(1, ⟨[(0, 10)], [(0, 100)]⟩)],
           [(0, 0)], [(0, 1)]⟩, []) ∧
    Err.InsufficientCollateral ≠ Err.InsufficientLiquidity :=
  ⟨rfl, by decide⟩

/-- **C9 (amended)**: with `total_supplied = total_borrowed = 100` (zero
available liquidity), no positive-amount `withdraw` (given a non-negative
stored deposit) or `borrow` against the pool can succeed; and whenever
the checks that precede the liquidity check pass — for `withdraw`: a
non-zero deposit and a passing health check on the reduced position; for
`borrow`: a positive price, in-range products and sufficient collateral —
the failure is exactly `InsufficientLiquidity`.  An unhealthy requester
fails earlier with `InsufficientCollateral`. -/
theorem liquidity_exhaustion_amended {s : State} {u t : Addr} {a : Int}
    {pool : Pool}
    (hpool : aGet s.pools t = some pool)
    (hts : pool.total_supply_shares = 100)
    (htb : pool.total_debt_shares = 100)
    (ha : 0 < a) :
    (∀ s' evs, borrow s u t a ≠ .ok (s', evs)) ∧
    (0 ≤ mGetD (get_user_pos s u).deposit_shares t →
      ∀ s' evs, withdraw s u t a ≠ .ok (s', evs)) ∧
    (∀ c d,
      mGetD (get_user_pos s u).deposit_shares t ≠ 0 →
      0 ≤ mGetD (get_user_pos s u).deposit_shares t →
      inI128 (mGetD (get_user_pos s u).deposit_shares t
        - min a (mGetD (get_user_pos s u).deposit_shares t)) →
      get_user_health s
        { get_user_pos s u with
          deposit_shares :=
            aSet (get_user_pos s u).deposit_shares t
              (mGetD (get_user_pos s u).deposit_shares t
                - min a (mGetD (get_user_pos s u).deposit_shares t)) }
        = .ok (c, d) →
      ¬ c < d →
      withdraw s u t a = .error (.InsufficientLiquidity, s, [])) ∧
    (∀ c d,
      get_user_health s (get_user_pos s u) = .ok (c, d) →
      0 < get_price s t →
      inI128 (a * get_price s t) →
      inI128 (d + a * get_price s t) →
      ¬ c < d + a * get_price s t →
      borrow s u t a = .error (.InsufficientLiquidity, s, [])) := by
  have hgp : get_pool s t = .ok pool := by
    unfold get_pool
    rw [hpool]
  have h00 : cSub pool.total_supply_shares pool.total_debt_shares = some 0 := by
    rw [hts, htb]
    rfl
  refine ⟨?_, ?_, ?_, ?_⟩
  · intro s' evs hok
    obtain ⟨_, _, _, _, _, _, _, _, pool2, hpool2, _, hliq, _⟩ := borrow_ok hok
    rw [hpool] at hpool2
    have : pool2 = pool := (Option.some.inj hpool2).symm
    subst this
    rw [hts, htb] at hliq
    omega
  · intro hnn s' evs hok
    obtain ⟨_, pool2, hpool2, hcur, _, _, _, hliq, _⟩ := withdraw_ok hok
    rw [hpool] at hpool2
    have : pool2 = pool := (Option.some.inj hpool2).symm
    subst this
    rw [hts, htb] at hliq
    have hcurpos : 0 < mGetD (get_user_pos s u).deposit_shares t :=
      lt_of_le_of_ne hnn (Ne.symm hcur)
    have : 0 < min a (mGetD (get_user_pos s u).deposit_shares t) :=
      lt_min ha hcurpos
    omega
  · intro c d hcur hnn hfit hhealth hcd
    have hgt : min a (mGetD (get_user_pos s u).deposit_shares t) > 0 :=
      lt_min ha (lt_of_le_of_ne hnn (Ne.symm hcur))
    simp only [withdraw, hgp, if_neg (not_le.2 ha), if_neg hcur,
      cSub_of_inI128 hfit, hhealth, if_neg hcd, h00]
    rw [hts]
    rw [if_pos hgt]
  · intro c d hh hp h1 h2 hcd
    simp only [borrow, hh, if_neg (not_le.2 ha), if_neg (not_le.2 hp),
      cMul_of_inI128 h1, cAdd_of_inI128 h2, if_neg hcd, hgp, h00,
      if_pos ha]

/-- Liquidity-exhaustion scenario state: pool of asset `0` with
`total_supplied = total_borrowed = 100`; healthy user `1` holds a deposit
of 50. -/
def sX : State :=
  ⟨[(0, ⟨0, 100, 100, 0⟩)], [(1, ⟨[(0, 50)], []⟩)], [(0, 10000)], [(0, 1)]⟩

theorem liquidity_exhaustion_witness :
    (∀ s' evs, borrow sX 1 0 5 ≠ .ok (s', evs)) ∧
    (0 ≤ mGetD (get_user_pos sX 1).deposit_shares 0 →
      ∀ s' evs, withdraw sX 1 0 5 ≠ .ok (s', evs)) ∧
    (∀ c d,
      mGetD (get_user_pos sX 1).deposit_shares 0 ≠ 0 →
      0 ≤ mGetD (get_user_pos sX 1).deposit_shares 0 →
      inI128 (mGetD (get_user_pos sX 1).deposit_shares 0
        - min 5 (mGetD (get_user_pos sX 1).deposit_shares 0)) →
      get_user_health sX
        { get_user_pos sX 1 with
          deposit_shares :=
            aSet (get_user_pos sX 1).deposit_shares 0
              (mGetD (get_user_pos sX 1).deposit_shares 0
                - min 5 (mGetD (get_user_pos sX 1).deposit_shares 0)) }
        = .ok (c, d) →
      ¬ c < d →
      withdraw sX 1 0 5 = .error (.InsufficientLiquidity, sX, [])) ∧
    (∀ c d,
      get_user_health sX (get_user_pos sX 1) = .ok (c, d) →
      0 < get_price sX 0 →
      inI128 (5 * get_price sX 0) →
      inI128 (d + 5 * get_price sX 0) →
      ¬ c < d + 5 * get_price sX 0 →
      borrow sX 1 0 5 = .error (.InsufficientLiquidity, sX, [])) :=
  @liquidity_exhaustion_amended sX 1 0 5 ⟨0, 100, 100, 0⟩ rfl rfl rfl
    (by decide)

/-- **C10** (implicit; debt-free users always pass the withdraw health
check): in any state whose stored prices are non-negative and whose LTVs
are at most 10000, a user whose deposit amounts are non-negative and
whose debts map is empty or holds only zero amounts never receives
`InsufficientCollateral` from `withdraw`: the evaluated debt value is 0
and the evaluated collateral value is non-negative, so the health
comparison cannot fail.  (These hypotheses hold in every reachable
state.) -/
theorem debt_free_withdraw_no_collateral_error {s : State} {u t : Addr}
    {a : Int}
    (hdep : ∀ q ∈ (get_user_pos s u).deposit_shares, 0 ≤ q.2)
    (hpr : ∀ q ∈ s.prices, 0 ≤ q.2)
    (hltv : ∀ q ∈ s.ltvs, q.2 ≤ 10000)
    (hdebt : ∀ q ∈ (get_user_pos s u).debt_shares, q.2 = 0) :
    ∀ s₁ evs, withdraw s u t a ≠ .error (.InsufficientCollateral, s₁, evs) := by
  intro s₁ evs h
  simp only [withdraw] at h
  split at h
  next => exact absurd (congrArg (fun x => x.1) (Except.error.inj h)) (by simp)
  next hle =>
    split at h
    next e heq =>
      have he := get_pool_err heq
      subst he
      exact absurd (congrArg (fun x => x.1) (Except.error.inj h)) (by simp)
    next pool hpool =>
      split at h
      next =>
        exact absurd (congrArg (fun x => x.1) (Except.error.inj h)) (by simp)
      next hcur =>
        split at h
        next =>
          exact absurd (congrArg (fun x => x.1) (Except.error.inj h)) (by simp)
        next reduced hred =>
          split at h
          next e heq =>
            have he := get_user_health_err heq
            subst he
            exact absurd (congrArg (fun x => x.1) (Except.error.inj h)) (by simp)
          next c d hhealth =>
            split at h
            next hlt =>
              -- the InsufficientCollateral branch: impossible for a
              -- debt-free user
              have hok := get_user_health_ok hhealth
              have hdz : d = 0 := by
                rw [hok.2]
                exact debtSum_zero s _ hdebt
              have hrednn : 0 ≤ reduced := by
                have := cSub_some hred
                subst this
                have hnn : 0 ≤ mGetD (get_user_pos s u).deposit_shares t :=
                  mGetD_nonneg hdep t
                have := min_le_right a (mGetD (get_user_pos s u).deposit_shares t)
                omega
              have hcnn : 0 ≤ c := by
                rw [hok.1]
                apply collatSum_nonneg _ hpr
                intro q hq
                rcases mem_aSet _ t reduced q hq with h' | h'
                · subst h'
                  exact hrednn
                · exact hdep q h'
              omega
            next hge =>
              split at h
              next =>
                exact absurd (congrArg (fun x => x.1) (Except.error.inj h))
                  (by simp)
              next avail havail =>
                split at h
                next =>
                  exact absurd (congrArg (fun x => x.1) (Except.error.inj h))
                    (by simp)
                next hliq =>
                  split at h
                  next =>
                    exact absurd (congrArg (fun x => x.1) (Except.error.inj h))
                      (by simp)
                  next ts hts => exact Except.noConfusion h

theorem debt_free_withdraw_witness :
    withdraw sC 2 0 3 ≠ .error (.InsufficientCollateral, sC, []) :=
  debt_free_withdraw_no_collateral_error (by decide) (by decide) (by decide)
    (by decide) sC []
